import Mathlib

/-!
Verification of the SpacetimeDB query-engine core against its design specification.

The development shallowly embeds two subsystems:

* `Tbl`: the BFLATN -> BSATN row-serialization fast path
  (`crates/table/src/bflatn_to_bsatn_fast_path.rs`), and
* `Vm`: the query-plan algebra, predicate evaluation, index selection,
  the local plan rewrites and the access gate
  (`crates/vm/src/expr.rs`).

Machine integers (`u16` offsets and lengths in the fast path) are modelled as `Nat`:
rows live inside 64 KiB pages, so all offsets computed by the layout builder fit in
`u16` and no wrap-around arithmetic is observable.
-/

namespace Tbl

mutual
/-- Modelled from the spec: the recursive row-type descriptor of layout.rs
(not included in the sources). `Primitive size` is a fixed-width leaf of
`size` bytes; `VarLen` is the opaque var-length marker; `Product` carries
ordered `(offset, type)` elements with pre-aligned offsets; `Sum` carries a
1-byte tag, a `payload_offset` and an ordered list of variants. -/
inductive AlgebraicTypeLayout where
  | Primitive (size : Nat)
  | VarLen
  | Product (elements : ProductElements)
  | Sum (payload_offset : Nat) (variants : SumVariants)

inductive ProductElements where
  | nil
  | cons (offset : Nat) (ty : AlgebraicTypeLayout) (rest : ProductElements)

inductive SumVariants where
  | nil
  | cons (ty : AlgebraicTypeLayout) (rest : SumVariants)
end

/-- One `memcpy` record of the fast path: copy `length` bytes from BFLATN
offset `bflatn_offset` to BSATN offset `bsatn_offset`. -/
structure MemcpyField where
  bflatn_offset : Nat
  bsatn_offset : Nat
  length : Nat
deriving DecidableEq, Repr

def MemcpyField.is_empty (f : MemcpyField) : Bool := f.length == 0

/-- A precomputed BSATN layout: total encoded length plus the memcpy records. -/
structure StaticBsatnLayout where
  bsatn_length : Nat
  fields : List MemcpyField
deriving DecidableEq, Repr

/-- The layout builder. The source keeps a nonempty `Vec<MemcpyField>` whose
last element is mutated in place; we model that vector as the already-frozen
prefix `prev` plus the current last field `cur`, so the source's `fields`
vector is `prev ++ [cur]`. -/
structure LayoutBuilder where
  prev : List MemcpyField
  cur : MemcpyField
deriving DecidableEq, Repr

def new_builder : LayoutBuilder := ⟨[], ⟨0, 0, 0⟩⟩

def LayoutBuilder.fieldsList (b : LayoutBuilder) : List MemcpyField := b.prev ++ [b.cur]

def LayoutBuilder.next_bflatn_offset (b : LayoutBuilder) : Nat := b.cur.bflatn_offset + b.cur.length

def LayoutBuilder.next_bsatn_offset (b : LayoutBuilder) : Nat := b.cur.bsatn_offset + b.cur.length

/-- Grow the current (last) field by `k` bytes; this is `visit_primitive`
generalized to a byte count. -/
def LayoutBuilder.grow (b : LayoutBuilder) (k : Nat) : LayoutBuilder :=
  { b with cur := { b.cur with length := b.cur.length + k } }

/-- Push a fresh last field, freezing the previous one. -/
def LayoutBuilder.pushField (b : LayoutBuilder) (f : MemcpyField) : LayoutBuilder :=
  ⟨b.prev ++ [b.cur], f⟩

/-- Finalize: drop zero-length records; the BSATN length is read off the last
retained record (or 0 if none survive). -/
def LayoutBuilder.build (b : LayoutBuilder) : StaticBsatnLayout :=
  let fs := b.fieldsList.filter (fun f => !f.is_empty)
  { bsatn_length := (fs.getLast?.map (fun f => f.bsatn_offset + f.length)).getD 0
    fields := fs }

def LayoutBuilder.visit_primitive (b : LayoutBuilder) (size : Nat) : LayoutBuilder :=
  b.grow size

mutual
/-- The mutually recursive visitors of `LayoutBuilder`. `visit_value` fails
(`none`) on var-length leaves, empty sums, and sums whose variants do not all
build the same `StaticBsatnLayout`. The source's local closure
`variant_layout` (a fresh builder run on a variant type) is inlined at its two
call sites and also available as `variant_layout` below; likewise the source's
`visit_product` (compute the base offset, then visit each element) is inlined
here and available as a wrapper below. -/
def visit_value (b : LayoutBuilder) : AlgebraicTypeLayout → Option LayoutBuilder
  | .Primitive size => some (b.visit_primitive size)
  | .VarLen => none
  | .Product elements => visit_elements b b.next_bflatn_offset elements
  | .Sum payload_offset variants =>
    match variants with
    | .nil => none
    | .cons first rest =>
      match (visit_value new_builder first).map LayoutBuilder.build with
      | none => none
      | some first_variant_layout =>
        match check_variants first_variant_layout rest with
        | none => none
        | some _ =>
          if first_variant_layout.bsatn_length = 0 then
            -- C-style enum: serialize only the 1-byte tag.
            some (b.grow 1)
          else
            let tag_bflatn_offset := b.next_bflatn_offset
            let tag_bsatn_offset := b.next_bsatn_offset
            let b1 := b.visit_primitive 1
            let b2 :=
              if payload_offset > 1 then
                b1.pushField ⟨tag_bflatn_offset + payload_offset, tag_bsatn_offset + 1, 0⟩
              else b1
            visit_value b2 first
termination_by structural t => t

def visit_elements (b : LayoutBuilder) (product_base_offset : Nat) :
    ProductElements → Option LayoutBuilder
  | .nil => some b
  | .cons offset ty rest =>
    -- visit_product_element: push an empty field when padding precedes the element.
    let elt_offset := product_base_offset + offset
    let b1 :=
      if b.next_bflatn_offset ≠ elt_offset then
        b.pushField ⟨elt_offset, b.next_bsatn_offset, 0⟩
      else b
    match visit_value b1 ty with
    | none => none
    | some b2 => visit_elements b2 product_base_offset rest
termination_by structural es => es

def check_variants (first_variant_layout : StaticBsatnLayout) : SumVariants → Option Unit
  | .nil => some ()
  | .cons ty rest =>
    match (visit_value new_builder ty).map LayoutBuilder.build with
    | none => none
    | some later_variant_layout =>
      if later_variant_layout ≠ first_variant_layout then none
      else check_variants first_variant_layout rest
termination_by structural vs => vs
end

/-- Visit a product: the base offset is the current flat position; the
elements' declared offsets are relative to it. -/
def visit_product (b : LayoutBuilder) (elements : ProductElements) : Option LayoutBuilder :=
  visit_elements b b.next_bflatn_offset elements

/-- Layout of a single sum variant, computed with a fresh builder
(the source's `variant_layout` closure). -/
def variant_layout (ty : AlgebraicTypeLayout) : Option StaticBsatnLayout :=
  (visit_value new_builder ty).map LayoutBuilder.build

/-- `StaticBsatnLayout::for_row_type`: run the builder over the row type's
top-level product and finalize. -/
def for_row_type (row_type : ProductElements) : Option StaticBsatnLayout :=
  (visit_product new_builder row_type).map LayoutBuilder.build

-- Spec scenarios S1-S4, checked against the model.
-- S1: row `(u64, u64, u32, u64)` at offsets 0, 8, 16, 24.
example :
    for_row_type (.cons 0 (.Primitive 8) (.cons 8 (.Primitive 8)
      (.cons 16 (.Primitive 4) (.cons 24 (.Primitive 8) .nil))))
    = some ⟨28, [⟨0, 0, 20⟩, ⟨24, 20, 8⟩]⟩ := rfl

-- S2: row `(Sum { U8, I8, Bool },)` with a 1-byte aligned payload.
example :
    for_row_type (.cons 0 (.Sum 1 (.cons (.Primitive 1) (.cons (.Primitive 1)
      (.cons (.Primitive 1) .nil)))) .nil)
    = some ⟨2, [⟨0, 0, 2⟩]⟩ := rfl

-- S3: row `(Sum { U128, I128 }, u32)` with payload offset 16.
example :
    for_row_type (.cons 0 (.Sum 16 (.cons (.Primitive 16) (.cons (.Primitive 16) .nil)))
      (.cons 32 (.Primitive 4) .nil))
    = some ⟨21, [⟨0, 0, 1⟩, ⟨16, 1, 20⟩]⟩ := rfl

-- S4: a var-length leaf disqualifies the row type.
example : for_row_type (.cons 0 .VarLen .nil) = none := rfl

/-! Claim C4: the three rejection conditions. A decidable predicate captures
"contains a var-length leaf anywhere, or a sum with zero variants, or a sum
whose variants do not all build the same static layout". -/

/-- All variants in the list build the given (optional) layout. -/
def variants_all_same (first_layout : Option StaticBsatnLayout) : SumVariants → Bool
  | .nil => true
  | .cons ty rest => (variant_layout ty == first_layout) && variants_all_same first_layout rest

mutual
/-- The type contains, anywhere, one of the conditions under which
`for_row_type` rejects: a var-length leaf, a sum with zero variants, or a sum
whose variants do not all produce the same static layout. -/
def contains_rejected : AlgebraicTypeLayout → Bool
  | .Primitive _ => false
  | .VarLen => true
  | .Product elements => elements_rejected elements
  | .Sum _ variants => sum_rejected variants
termination_by structural t => t

def elements_rejected : ProductElements → Bool
  | .nil => false
  | .cons _ ty rest => contains_rejected ty || elements_rejected rest
termination_by structural es => es

def sum_rejected : SumVariants → Bool
  | .nil => true
  | .cons first rest =>
    contains_rejected first || rest_rejected rest ||
      !(variants_all_same (variant_layout first) rest)
termination_by structural vs => vs

def rest_rejected : SumVariants → Bool
  | .nil => false
  | .cons ty rest => contains_rejected ty || rest_rejected rest
termination_by structural vs => vs
end

theorem check_variants_of_not_all_same (fl : StaticBsatnLayout) :
    ∀ (rest : SumVariants), variants_all_same (some fl) rest = false →
      check_variants fl rest = none
  | .nil, hsame => Bool.noConfusion hsame
  | .cons ty rest', hsame => by
    have h := hsame
    simp only [variants_all_same, Bool.and_eq_false_iff] at h
    cases hvl : (visit_value new_builder ty).map LayoutBuilder.build with
    | none => simp [check_variants, hvl]
    | some l =>
      have hvl' : variant_layout ty = some l := hvl
      rcases h with h | h
      · have hne : l ≠ fl := by
          intro he; rw [hvl', he] at h; simp at h
        simp [check_variants, hvl, hne]
      · by_cases he : l = fl
        · simp [check_variants, hvl, he, check_variants_of_not_all_same fl rest' h]
        · simp [check_variants, hvl, he]

mutual
theorem visit_value_rejected_none :
    ∀ (t : AlgebraicTypeLayout) (b : LayoutBuilder), contains_rejected t = true →
      visit_value b t = none := by
  intro t b h
  cases t with
  | Primitive size => simp [contains_rejected] at h
  | VarLen => rfl
  | Product elements =>
    simp only [contains_rejected] at h
    exact visit_elements_rejected_none elements b _ h
  | Sum payload_offset variants =>
    simp only [contains_rejected] at h
    cases variants with
    | nil => rfl
    | cons first rest =>
      simp only [sum_rejected, Bool.or_eq_true, Bool.not_eq_eq_eq_not, Bool.not_true] at h
      rcases h with (h | h) | h
      · simp [visit_value, visit_value_rejected_none first new_builder h]
      · cases hfl : (visit_value new_builder first).map LayoutBuilder.build with
        | none => simp [visit_value, hfl]
        | some fl => simp [visit_value, hfl, check_variants_rest_rejected fl rest h]
      · cases hfl : (visit_value new_builder first).map LayoutBuilder.build with
        | none => simp [visit_value, hfl]
        | some fl =>
          have hvf : variant_layout first = some fl := hfl
          simp [visit_value, hfl,
            check_variants_of_not_all_same fl rest (by rw [← hvf]; exact h)]
termination_by structural t => t

theorem visit_elements_rejected_none :
    ∀ (es : ProductElements) (b : LayoutBuilder) (base : Nat), elements_rejected es = true →
      visit_elements b base es = none := by
  intro es
  cases es with
  | nil => intro b base h; simp [elements_rejected] at h
  | cons offset ty rest =>
    intro b base h
    simp only [elements_rejected, Bool.or_eq_true] at h
    rcases h with h | h
    · simp [visit_elements, visit_value_rejected_none ty _ h]
    · simp only [visit_elements, ne_eq, ite_not]
      cases hv : visit_value
        (if b.next_bflatn_offset = base + offset then b
        else b.pushField ⟨base + offset, b.next_bsatn_offset, 0⟩) ty with
      | none => simp [hv]
      | some b2 => simp [hv, visit_elements_rejected_none rest b2 base h]
termination_by structural es => es

theorem check_variants_rest_rejected (fl : StaticBsatnLayout) :
    ∀ (rest : SumVariants), rest_rejected rest = true → check_variants fl rest = none := by
  intro rest
  cases rest with
  | nil => intro h; simp [rest_rejected] at h
  | cons ty rest' =>
    intro h
    simp only [rest_rejected, Bool.or_eq_true] at h
    rcases h with h | h
    · simp [check_variants, visit_value_rejected_none ty new_builder h]
    · cases hvl : (visit_value new_builder ty).map LayoutBuilder.build with
      | none => simp [check_variants, hvl]
      | some l =>
        by_cases he : l = fl
        · simp [check_variants, hvl, he, check_variants_rest_rejected fl rest' h]
        · simp [check_variants, hvl, he]
termination_by structural vs => vs
end

/-- C4. For every row-type descriptor, `StaticBsatnLayout::for_row_type`
returns `None` whenever the type contains a variable-length leaf anywhere, or
a sum whose variants do not all produce the same static layout (same total
length and same copy-record sequence), or a sum with zero variants: in all of
these cases no layout is produced. -/
theorem C4_for_row_type_rejects (row_type : ProductElements)
    (h : contains_rejected (.Product row_type) = true) :
    for_row_type row_type = none := by
  simp only [contains_rejected] at h
  unfold for_row_type visit_product
  rw [visit_elements_rejected_none row_type new_builder _ h]
  rfl

/-- Witness for C4 at a concrete input: a sum whose two variants (`u8` and
`u16`) have different unpadded lengths, as in the source's
`known_types_not_applicable` test. -/
theorem C4_for_row_type_rejects_witness :
    contains_rejected (.Product (.cons 0
      (.Sum 2 (.cons (.Primitive 1) (.cons (.Primitive 2) .nil))) .nil)) = true ∧
    for_row_type (.cons 0
      (.Sum 2 (.cons (.Primitive 1) (.cons (.Primitive 2) .nil))) .nil) = none :=
  ⟨by decide, C4_for_row_type_rejects _ (by decide)⟩

/-! Claims C5 and C10: structural invariants of every built layout.

We track two adjacency relations along the builder's field vector:
`bsatnLink` (each record starts exactly where the previous one ends on the
BSATN side) holds unconditionally; `bflatnLink` (records strictly separated
on the BFLATN side) holds for well-formed row types. -/

def sum_lengths (l : List MemcpyField) : Nat := (l.map (fun f => f.length)).sum

def bsatnLink (f g : MemcpyField) : Prop := g.bsatn_offset = f.bsatn_offset + f.length

def bflatnLink (f g : MemcpyField) : Prop := f.bflatn_offset + f.length < g.bflatn_offset

instance : IsTrans MemcpyField bflatnLink :=
  ⟨fun _ _ _ h1 h2 => by unfold bflatnLink at *; omega⟩

/-- BSATN offset of the first field in the builder's vector. -/
def LayoutBuilder.headBs : LayoutBuilder → Nat
  | ⟨[], cur⟩ => cur.bsatn_offset
  | ⟨f :: _, _⟩ => f.bsatn_offset

theorem fieldsList_push (b : LayoutBuilder) (f : MemcpyField) :
    (b.pushField f).fieldsList = b.fieldsList ++ [f] := by
  simp [LayoutBuilder.fieldsList, LayoutBuilder.pushField]

theorem headBs_grow (b : LayoutBuilder) (k : Nat) : (b.grow k).headBs = b.headBs := by
  cases b with | mk prev cur => cases prev <;> rfl

theorem headBs_push (b : LayoutBuilder) (f : MemcpyField) :
    (b.pushField f).headBs = b.headBs := by
  cases b with | mk prev cur => cases prev <;> rfl

theorem headBs_new_builder : new_builder.headBs = 0 := rfl

/-- Growing the current field preserves any adjacency relation that does not
look at the length of its right argument. -/
theorem chain'_grow {R : MemcpyField → MemcpyField → Prop}
    (hR : ∀ x c k, R x c → R x ⟨c.bflatn_offset, c.bsatn_offset, c.length + k⟩)
    {b : LayoutBuilder} {k : Nat} (h : List.Chain' R b.fieldsList) :
    List.Chain' R (b.grow k).fieldsList := by
  obtain ⟨h1, _, h3⟩ := List.chain'_append.mp h
  refine List.chain'_append.mpr ⟨h1, List.chain'_singleton _, ?_⟩
  intro x hx y hy
  simp only [List.head?_cons, Option.mem_def, Option.some.injEq] at hy
  subst hy
  exact hR x b.cur k (h3 x hx b.cur (by simp))

theorem chain'_push {R : MemcpyField → MemcpyField → Prop}
    {b : LayoutBuilder} {f : MemcpyField} (h : List.Chain' R b.fieldsList)
    (hcf : R b.cur f) : List.Chain' R (b.pushField f).fieldsList := by
  rw [fieldsList_push]
  refine List.chain'_append.mpr ⟨h, List.chain'_singleton _, ?_⟩
  intro x hx y hy
  simp only [List.head?_cons, Option.mem_def, Option.some.injEq] at hy
  subst hy
  have : x = b.cur := by
    have := hx
    rw [LayoutBuilder.fieldsList, List.getLast?_concat] at this
    exact (Option.some.inj this).symm
  rw [this]
  exact hcf

theorem bsatnLink_grow : ∀ (x c : MemcpyField) (k : Nat), bsatnLink x c →
    bsatnLink x ⟨c.bflatn_offset, c.bsatn_offset, c.length + k⟩ := fun _ _ _ h => h

theorem bflatnLink_grow : ∀ (x c : MemcpyField) (k : Nat), bflatnLink x c →
    bflatnLink x ⟨c.bflatn_offset, c.bsatn_offset, c.length + k⟩ := fun _ _ _ h => h

theorem next_bflatn_grow (b : LayoutBuilder) (k : Nat) :
    (b.grow k).next_bflatn_offset = b.next_bflatn_offset + k := by
  simp [LayoutBuilder.grow, LayoutBuilder.next_bflatn_offset]; omega

theorem next_bflatn_push (b : LayoutBuilder) (f : MemcpyField) :
    (b.pushField f).next_bflatn_offset = f.bflatn_offset + f.length := rfl

mutual
/-- The unconditional invariant: `visit_value` preserves the BSATN adjacency
chain and the BSATN offset of the first field. -/
theorem visit_value_chainA :
    ∀ (t : AlgebraicTypeLayout) (b b' : LayoutBuilder), visit_value b t = some b' →
      List.Chain' bsatnLink b.fieldsList →
      List.Chain' bsatnLink b'.fieldsList ∧ b'.headBs = b.headBs := by
  intro t b b' h hc
  cases t with
  | Primitive size =>
    cases Option.some.inj h
    exact ⟨chain'_grow bsatnLink_grow hc, headBs_grow b size⟩
  | VarLen => exact Option.noConfusion h
  | Product elements => exact visit_elements_chainA elements b _ b' h hc
  | Sum payload_offset variants =>
    cases variants with
    | nil => exact Option.noConfusion h
    | cons first rest =>
      rw [visit_value] at h
      cases hfl : (visit_value new_builder first).map LayoutBuilder.build with
      | none => simp only [hfl] at h; exact Option.noConfusion h
      | some fl =>
        simp only [hfl] at h
        cases hcv : check_variants fl rest with
        | none => simp only [hcv] at h; exact Option.noConfusion h
        | some u =>
          simp only [hcv] at h
          by_cases hz : fl.bsatn_length = 0
          · rw [if_pos hz] at h
            cases Option.some.inj h
            exact ⟨chain'_grow bsatnLink_grow hc, headBs_grow b 1⟩
          · rw [if_neg hz] at h
            by_cases hpo : payload_offset > 1
            · rw [if_pos hpo] at h
              have hc1 : List.Chain' bsatnLink
                  ((b.visit_primitive 1).pushField
                    ⟨b.next_bflatn_offset + payload_offset,
                     b.next_bsatn_offset + 1, 0⟩).fieldsList := by
                refine chain'_push (chain'_grow bsatnLink_grow hc) ?_
                show b.next_bsatn_offset + 1
                  = (b.visit_primitive 1).cur.bsatn_offset + (b.visit_primitive 1).cur.length
                simp [LayoutBuilder.visit_primitive, LayoutBuilder.grow,
                  LayoutBuilder.next_bsatn_offset]
                omega
              obtain ⟨hcb, hhb⟩ := visit_value_chainA first _ b' h hc1
              refine ⟨hcb, ?_⟩
              rw [hhb, headBs_push]
              exact headBs_grow b 1
            · rw [if_neg hpo] at h
              obtain ⟨hcb, hhb⟩ :=
                visit_value_chainA first _ b' h (chain'_grow bsatnLink_grow hc)
              refine ⟨hcb, ?_⟩
              rw [hhb]
              exact headBs_grow b 1
termination_by structural t => t

theorem visit_elements_chainA :
    ∀ (es : ProductElements) (b : LayoutBuilder) (base : Nat) (b' : LayoutBuilder),
      visit_elements b base es = some b' →
      List.Chain' bsatnLink b.fieldsList →
      List.Chain' bsatnLink b'.fieldsList ∧ b'.headBs = b.headBs := by
  intro es b base b' h hc
  cases es with
  | nil =>
    cases Option.some.inj h
    exact ⟨hc, rfl⟩
  | cons offset ty rest =>
    rw [visit_elements] at h
    by_cases hne : b.next_bflatn_offset ≠ base + offset
    · rw [if_pos hne] at h
      have hc1 : List.Chain' bsatnLink
          (b.pushField ⟨base + offset, b.next_bsatn_offset, 0⟩).fieldsList :=
        chain'_push hc rfl
      cases hv : visit_value (b.pushField ⟨base + offset, b.next_bsatn_offset, 0⟩) ty with
      | none => rw [hv] at h; exact Option.noConfusion h
      | some b2 =>
        rw [hv] at h
        obtain ⟨hc2, hh2⟩ := visit_value_chainA ty _ b2 hv hc1
        obtain ⟨hc3, hh3⟩ := visit_elements_chainA rest b2 base b' h hc2
        exact ⟨hc3, by rw [hh3, hh2, headBs_push]⟩
    · rw [if_neg hne] at h
      cases hv : visit_value b ty with
      | none => rw [hv] at h; exact Option.noConfusion h
      | some b2 =>
        rw [hv] at h
        obtain ⟨hc2, hh2⟩ := visit_value_chainA ty b b2 hv hc
        obtain ⟨hc3, hh3⟩ := visit_elements_chainA rest b2 base b' h hc2
        exact ⟨hc3, by rw [hh3, hh2]⟩
termination_by structural es => es
end

mutual
/-- Modelled from the spec: a lower bound on the in-memory extent of a value
of the type, measured from its aligned start. Products end at their last
element's offset plus that element's extent; a sum's payload region starts at
`payload_offset` and holds the largest variant. -/
def min_size : AlgebraicTypeLayout → Nat
  | .Primitive size => size
  | .VarLen => 0
  | .Product elements => elements_end 0 elements
  | .Sum payload_offset variants => payload_offset + max_variant_size variants
termination_by structural t => t

def elements_end (lb : Nat) : ProductElements → Nat
  | .nil => lb
  | .cons offset ty rest => elements_end (offset + min_size ty) rest
termination_by structural es => es

def max_variant_size : SumVariants → Nat
  | .nil => 0
  | .cons ty rest => max (min_size ty) (max_variant_size rest)
termination_by structural vs => vs
end

mutual
/-- Modelled from the spec (section 3, invariants of the row-type
descriptor): product elements are laid out in declaration order at
pre-aligned, non-overlapping offsets (each element starts at or after the end
of the previous one), and a sum's payload offset is at least 1 (the tag
occupies one byte). -/
def wf : AlgebraicTypeLayout → Bool
  | .Primitive _ => true
  | .VarLen => true
  | .Product elements => wf_elements 0 elements
  | .Sum payload_offset variants => decide (1 ≤ payload_offset) && wf_variants variants
termination_by structural t => t

def wf_elements (lb : Nat) : ProductElements → Bool
  | .nil => true
  | .cons offset ty rest =>
    decide (lb ≤ offset) && wf ty && wf_elements (offset + min_size ty) rest
termination_by structural es => es

def wf_variants : SumVariants → Bool
  | .nil => true
  | .cons ty rest => wf ty && wf_variants rest
termination_by structural vs => vs
end

theorem min_size_le_max_of_head (first : AlgebraicTypeLayout) (rest : SumVariants) :
    min_size first ≤ max_variant_size (.cons first rest) := by
  rw [max_variant_size]; exact le_max_left _ _

mutual
/-- For well-formed types, `visit_value` preserves the strict BFLATN
separation chain, and advances the write position by at most the type's
in-memory extent. -/
theorem visit_value_chainB :
    ∀ (t : AlgebraicTypeLayout) (b b' : LayoutBuilder), wf t = true →
      visit_value b t = some b' →
      List.Chain' bflatnLink b.fieldsList →
      List.Chain' bflatnLink b'.fieldsList ∧
        b'.next_bflatn_offset ≤ b.next_bflatn_offset + min_size t := by
  intro t b b' hwf h hc
  cases t with
  | Primitive size =>
    cases Option.some.inj h
    exact ⟨chain'_grow bflatnLink_grow hc,
      by rw [min_size]; exact le_of_eq (next_bflatn_grow b size)⟩
  | VarLen => exact Option.noConfusion h
  | Product elements =>
    rw [wf] at hwf
    have := visit_elements_chainB elements 0 b.next_bflatn_offset b b' hwf
      (by omega) h hc
    rw [min_size]
    exact this
  | Sum payload_offset variants =>
    rw [wf, Bool.and_eq_true, decide_eq_true_eq] at hwf
    obtain ⟨hpo1, hwfv⟩ := hwf
    cases variants with
    | nil => exact Option.noConfusion h
    | cons first rest =>
      rw [wf_variants, Bool.and_eq_true] at hwfv
      obtain ⟨hwff, _⟩ := hwfv
      rw [visit_value] at h
      cases hfl : (visit_value new_builder first).map LayoutBuilder.build with
      | none => simp only [hfl] at h; exact Option.noConfusion h
      | some fl =>
        simp only [hfl] at h
        cases hcv : check_variants fl rest with
        | none => simp only [hcv] at h; exact Option.noConfusion h
        | some u =>
          simp only [hcv] at h
          by_cases hz : fl.bsatn_length = 0
          · rw [if_pos hz] at h
            cases Option.some.inj h
            refine ⟨chain'_grow bflatnLink_grow hc, ?_⟩
            rw [next_bflatn_grow, min_size]
            omega
          · rw [if_neg hz] at h
            by_cases hpo : payload_offset > 1
            · rw [if_pos hpo] at h
              have hc1 : List.Chain' bflatnLink
                  ((b.visit_primitive 1).pushField
                    ⟨b.next_bflatn_offset + payload_offset,
                     b.next_bsatn_offset + 1, 0⟩).fieldsList := by
                refine chain'_push (chain'_grow bflatnLink_grow hc) ?_
                show (b.visit_primitive 1).cur.bflatn_offset + (b.visit_primitive 1).cur.length
                  < b.next_bflatn_offset + payload_offset
                simp [LayoutBuilder.visit_primitive, LayoutBuilder.grow,
                  LayoutBuilder.next_bflatn_offset]
                omega
              obtain ⟨hcb, hnb⟩ := visit_value_chainB first _ b' hwff h hc1
              refine ⟨hcb, ?_⟩
              rw [next_bflatn_push] at hnb
              rw [min_size]
              have := min_size_le_max_of_head first rest
              simp only at hnb
              omega
            · rw [if_neg hpo] at h
              obtain ⟨hcb, hnb⟩ :=
                visit_value_chainB first _ b' hwff h (chain'_grow bflatnLink_grow hc)
              refine ⟨hcb, ?_⟩
              have hg : (b.visit_primitive 1).next_bflatn_offset
                  = b.next_bflatn_offset + 1 := next_bflatn_grow b 1
              rw [hg] at hnb
              rw [min_size]
              have := min_size_le_max_of_head first rest
              omega
termination_by structural t => t

theorem visit_elements_chainB :
    ∀ (es : ProductElements) (lb base : Nat) (b b' : LayoutBuilder),
      wf_elements lb es = true →
      b.next_bflatn_offset ≤ base + lb →
      visit_elements b base es = some b' →
      List.Chain' bflatnLink b.fieldsList →
      List.Chain' bflatnLink b'.fieldsList ∧
        b'.next_bflatn_offset ≤ base + elements_end lb es := by
  intro es lb base b b' hwf hnb h hc
  cases es with
  | nil =>
    cases Option.some.inj h
    rw [elements_end]
    exact ⟨hc, hnb⟩
  | cons offset ty rest =>
    rw [wf_elements, Bool.and_eq_true, Bool.and_eq_true, decide_eq_true_eq] at hwf
    obtain ⟨⟨hlb, hwft⟩, hwfr⟩ := hwf
    rw [visit_elements] at h
    rw [elements_end]
    by_cases hne : b.next_bflatn_offset ≠ base + offset
    · rw [if_pos hne] at h
      have hlt : b.next_bflatn_offset < base + offset := by omega
      have hc1 : List.Chain' bflatnLink
          (b.pushField ⟨base + offset, b.next_bsatn_offset, 0⟩).fieldsList :=
        chain'_push hc hlt
      cases hv : visit_value (b.pushField ⟨base + offset, b.next_bsatn_offset, 0⟩) ty with
      | none => rw [hv] at h; exact Option.noConfusion h
      | some b2 =>
        rw [hv] at h
        obtain ⟨hc2, hn2⟩ := visit_value_chainB ty _ b2 hwft hv hc1
        rw [next_bflatn_push] at hn2
        simp only at hn2
        exact visit_elements_chainB rest (offset + min_size ty) base b2 b' hwfr
          (by omega) h hc2
    · rw [if_neg hne] at h
      have heq : b.next_bflatn_offset = base + offset := by omega
      cases hv : visit_value b ty with
      | none => rw [hv] at h; exact Option.noConfusion h
      | some b2 =>
        rw [hv] at h
        obtain ⟨hc2, hn2⟩ := visit_value_chainB ty b b2 hwft hv hc
        exact visit_elements_chainB rest (offset + min_size ty) base b2 b' hwfr
          (by omega) h hc2
termination_by structural es => es
end

/-! Transferring the chains through `build`'s filter, and reading off the
claimed invariants. -/

theorem head_fieldsList_bs (b : LayoutBuilder) :
    ∀ g ∈ b.fieldsList.head?, g.bsatn_offset = b.headBs := by
  cases b with
  | mk prev cur =>
    cases prev with
    | nil => intro g hg; cases hg; rfl
    | cons f t => intro g hg; cases hg; rfl

theorem bsatn_chain_filter_head :
    ∀ (l : List MemcpyField) (a : MemcpyField), List.Chain' bsatnLink (a :: l) →
      ∀ g ∈ (l.filter (fun f => !f.is_empty)).head?, bsatnLink a g := by
  intro l
  induction l with
  | nil => intro a _ g hg; simp at hg
  | cons e l' ih =>
    intro a hchain g hg
    have hae : bsatnLink a e := (List.chain'_cons.mp hchain).1
    have htail : List.Chain' bsatnLink (e :: l') := (List.chain'_cons.mp hchain).2
    rw [List.filter_cons] at hg
    by_cases hke : (!e.is_empty) = true
    · rw [if_pos hke] at hg
      cases hg
      exact hae
    · rw [if_neg (by simpa using hke)] at hg
      have hlen : e.length = 0 := by
        simp [MemcpyField.is_empty] at hke; exact hke
      have heg : bsatnLink e g := ih e htail g hg
      unfold bsatnLink at *
      omega

theorem bsatn_chain_filter :
    ∀ (l : List MemcpyField), List.Chain' bsatnLink l →
      List.Chain' bsatnLink (l.filter (fun f => !f.is_empty)) := by
  intro l
  induction l with
  | nil => intro _; simp
  | cons a l' ih =>
    intro hchain
    have htail : List.Chain' bsatnLink l' := hchain.tail
    rw [List.filter_cons]
    by_cases hka : (!a.is_empty) = true
    · rw [if_pos hka]
      exact List.chain'_cons'.mpr ⟨bsatn_chain_filter_head l' a hchain, ih htail⟩
    · rw [if_neg (by simpa using hka)]
      exact ih htail

theorem bsatn_filter_head_bs :
    ∀ (l : List MemcpyField) (c : Nat), List.Chain' bsatnLink l →
      (∀ g ∈ l.head?, g.bsatn_offset = c) →
      ∀ g ∈ (l.filter (fun f => !f.is_empty)).head?, g.bsatn_offset = c := by
  intro l
  induction l with
  | nil => intro c _ _ g hg; simp at hg
  | cons a l' ih =>
    intro c hchain hhead g hg
    have ha : a.bsatn_offset = c := hhead a (by simp)
    rw [List.filter_cons] at hg
    by_cases hka : (!a.is_empty) = true
    · rw [if_pos hka] at hg
      cases hg
      exact ha
    · rw [if_neg (by simpa using hka)] at hg
      have hlen : a.length = 0 := by
        simp [MemcpyField.is_empty] at hka; exact hka
      refine ih c hchain.tail ?_ g hg
      intro g' hg'
      have := List.chain'_cons'.mp hchain
      have hlink : bsatnLink a g' := this.1 g' hg'
      unfold bsatnLink at hlink
      omega

theorem bsatn_prefix_sums :
    ∀ (F : List MemcpyField) (c : Nat), List.Chain' bsatnLink F →
      (∀ g ∈ F.head?, g.bsatn_offset = c) →
      ∀ i (hi : i < F.length),
        (F.get ⟨i, hi⟩).bsatn_offset = c + sum_lengths (F.take i) := by
  intro F
  induction F with
  | nil => intro c _ _ i hi; simp at hi
  | cons a F' ih =>
    intro c hchain hhead i hi
    have ha : a.bsatn_offset = c := hhead a (by simp)
    cases i with
    | zero => simpa [sum_lengths] using ha
    | succ j =>
      have hj : j < F'.length := by simpa using hi
      have hnext : ∀ g ∈ F'.head?, g.bsatn_offset = c + a.length := by
        intro g hg
        have hlink : bsatnLink a g := (List.chain'_cons'.mp hchain).1 g hg
        unfold bsatnLink at hlink
        omega
      have := ih (c + a.length) hchain.tail hnext j hj
      simpa [sum_lengths, Nat.add_assoc] using this

theorem bsatn_total :
    ∀ (F : List MemcpyField) (c : Nat), List.Chain' bsatnLink F →
      (∀ g ∈ F.head?, g.bsatn_offset = c) →
      ((F.getLast?.map (fun f => f.bsatn_offset + f.length)).getD c)
        = c + sum_lengths F := by
  intro F
  induction F with
  | nil => intro c _ _; simp [sum_lengths]
  | cons a F' ih =>
    intro c hchain hhead
    have ha : a.bsatn_offset = c := hhead a (by simp)
    cases F' with
    | nil => simp [sum_lengths, ha]
    | cons b F'' =>
      have hnext : ∀ g ∈ (b :: F'').head?, g.bsatn_offset = c + a.length := by
        intro g hg
        cases hg
        have hlink : bsatnLink a b := (List.chain'_cons.mp hchain).1
        unfold bsatnLink at hlink
        omega
      have := ih (c + a.length) hchain.tail hnext
      rw [List.getLast?_cons_cons]
      rw [show ((b :: F'').getLast?.map (fun f => f.bsatn_offset + f.length)).getD c
          = ((b :: F'').getLast?.map (fun f => f.bsatn_offset + f.length)).getD
            (c + a.length) by
        cases hgl : (b :: F'').getLast? with
        | none => simp at hgl
        | some x => simp]
      rw [this]
      simp [sum_lengths]
      omega

theorem bsatn_each_le_total :
    ∀ (F : List MemcpyField), List.Chain' bsatnLink F →
      ∀ f ∈ F, f.bsatn_offset + f.length
        ≤ ((F.getLast?.map (fun g => g.bsatn_offset + g.length)).getD 0) := by
  intro F
  induction F with
  | nil => intro _ f hf; simp at hf
  | cons a F' ih =>
    intro hchain f hf
    cases F' with
    | nil =>
      rcases List.mem_cons.mp hf with hf | hf
      · subst hf; simp
      · simp at hf
    | cons b F'' =>
      have hlink : bsatnLink a b := (List.chain'_cons.mp hchain).1
      rw [List.getLast?_cons_cons]
      rcases List.mem_cons.mp hf with hf | hf
      · subst hf
        have hb : b ∈ b :: F'' := by simp
        have hle := ih hchain.tail b hb
        unfold bsatnLink at hlink
        omega
      · exact ih hchain.tail f hf

/-- C5. In every `StaticBsatnLayout` produced by `for_row_type` on a
well-formed row type: the retained copy records have strictly increasing
BFLATN (source) offsets, each record's BSATN (destination) offset equals the
sum of the lengths of all preceding records, the stored `bsatn_length` equals
the total sum of all lengths, and no retained record has length zero. -/
theorem C5_layout_invariants (row_type : ProductElements) (sl : StaticBsatnLayout)
    (hwf : wf (.Product row_type) = true)
    (h : for_row_type row_type = some sl) :
    List.Pairwise (fun f g => f.bflatn_offset < g.bflatn_offset) sl.fields ∧
    (∀ i (hi : i < sl.fields.length),
      (sl.fields.get ⟨i, hi⟩).bsatn_offset = sum_lengths (sl.fields.take i)) ∧
    sl.bsatn_length = sum_lengths sl.fields ∧
    (∀ f ∈ sl.fields, f.length ≠ 0) := by
  unfold for_row_type visit_product at h
  cases hv : visit_elements new_builder new_builder.next_bflatn_offset row_type with
  | none => rw [hv] at h; exact Option.noConfusion h
  | some b' =>
    rw [hv] at h
    cases Option.some.inj h
    rw [wf] at hwf
    have hinit : List.Chain' bsatnLink new_builder.fieldsList := by
      simp [new_builder, LayoutBuilder.fieldsList]
    have hinitB : List.Chain' bflatnLink new_builder.fieldsList := by
      simp [new_builder, LayoutBuilder.fieldsList]
    obtain ⟨hcA, hhA⟩ := visit_elements_chainA row_type new_builder _ b' hv hinit
    obtain ⟨hcB, _⟩ := visit_elements_chainB row_type 0 new_builder.next_bflatn_offset
      new_builder b' hwf (by omega) hv hinitB
    rw [headBs_new_builder] at hhA
    have hheadF := bsatn_filter_head_bs b'.fieldsList 0 hcA
      (fun g hg => by rw [head_fieldsList_bs b' g hg, hhA])
    have hchainF := bsatn_chain_filter b'.fieldsList hcA
    refine ⟨?_, ?_, ?_, ?_⟩
    · have hsub : List.Chain' bflatnLink
          (b'.fieldsList.filter (fun f => !f.is_empty)) :=
        hcB.sublist (List.filter_sublist _)
      have := List.chain'_iff_pairwise.mp hsub
      exact this.imp (fun hfg => by unfold bflatnLink at hfg; omega)
    · intro i hi
      simpa using bsatn_prefix_sums _ 0 hchainF hheadF i hi
    · show (((b'.fieldsList.filter (fun f => !f.is_empty)).getLast?.map
          (fun f => f.bsatn_offset + f.length)).getD 0) = _
      simpa using bsatn_total _ 0 hchainF hheadF
    · intro f hf
      have := List.of_mem_filter hf
      simpa [MemcpyField.is_empty] using this

/-- Witness for C5 at the spec's scenario S1, the row type
`(u64, u64, u32, u64)`. -/
theorem C5_layout_invariants_witness :
    wf (.Product (.cons 0 (.Primitive 8) (.cons 8 (.Primitive 8)
      (.cons 16 (.Primitive 4) (.cons 24 (.Primitive 8) .nil))))) = true ∧
    for_row_type (.cons 0 (.Primitive 8) (.cons 8 (.Primitive 8)
      (.cons 16 (.Primitive 4) (.cons 24 (.Primitive 8) .nil))))
      = some ⟨28, [⟨0, 0, 20⟩, ⟨24, 20, 8⟩]⟩ ∧
    (List.Pairwise (fun f g => f.bflatn_offset < g.bflatn_offset)
      ([⟨0, 0, 20⟩, ⟨24, 20, 8⟩] : List MemcpyField) ∧
    (∀ i (hi : i < ([⟨0, 0, 20⟩, ⟨24, 20, 8⟩] : List MemcpyField).length),
      (([⟨0, 0, 20⟩, ⟨24, 20, 8⟩] : List MemcpyField).get ⟨i, hi⟩).bsatn_offset
        = sum_lengths (([⟨0, 0, 20⟩, ⟨24, 20, 8⟩] : List MemcpyField).take i)) ∧
    (28 : Nat) = sum_lengths ([⟨0, 0, 20⟩, ⟨24, 20, 8⟩] : List MemcpyField) ∧
    (∀ f ∈ ([⟨0, 0, 20⟩, ⟨24, 20, 8⟩] : List MemcpyField), f.length ≠ 0)) :=
  ⟨by decide, rfl,
    C5_layout_invariants
      (.cons 0 (.Primitive 8) (.cons 8 (.Primitive 8)
        (.cons 16 (.Primitive 4) (.cons 24 (.Primitive 8) .nil))))
      ⟨28, [⟨0, 0, 20⟩, ⟨24, 20, 8⟩]⟩ (by decide) rfl⟩

/-! Claim C10: copy records stay within the declared output length, so the
raw writes of `serialize_row_into` stay within the first `bsatn_length`
bytes of the destination buffer. -/

/-- Model of `MemcpyField::copy`: write the `length` source bytes starting at
`bflatn_offset` of `row` into `buf` starting at `bsatn_offset`. -/
def MemcpyField.copy (f : MemcpyField) (buf row : List Nat) : List Nat :=
  (List.range f.length).foldl
    (fun acc i => acc.set (f.bsatn_offset + i) (row.getD (f.bflatn_offset + i) 0)) buf

/-- Model of `StaticBsatnLayout::serialize_row_into`: perform every copy in
order. -/
def StaticBsatnLayout.serialize_row_into (sl : StaticBsatnLayout)
    (buf row : List Nat) : List Nat :=
  sl.fields.foldl (fun acc f => f.copy acc row) buf

theorem copy_preserves_beyond (f : MemcpyField) (buf row : List Nat) (n : Nat)
    (hf : f.bsatn_offset + f.length ≤ n) :
    (f.copy buf row).length = buf.length ∧
    ∀ i, n ≤ i → (f.copy buf row).getD i 0 = buf.getD i 0 := by
  unfold MemcpyField.copy
  have key : ∀ (js : List Nat) (acc : List Nat),
      (∀ j ∈ js, j < f.length) →
      ((js.foldl (fun acc i =>
          acc.set (f.bsatn_offset + i) (row.getD (f.bflatn_offset + i) 0)) acc).length
        = acc.length ∧
      ∀ i, n ≤ i → (js.foldl (fun acc i =>
          acc.set (f.bsatn_offset + i) (row.getD (f.bflatn_offset + i) 0)) acc).getD i 0
        = acc.getD i 0) := by
    intro js
    induction js with
    | nil => intro acc _; exact ⟨rfl, fun _ _ => rfl⟩
    | cons j js' ih =>
      intro acc hjs
      have hj : j < f.length := hjs j (by simp)
      obtain ⟨ihlen, ihget⟩ := ih (acc.set (f.bsatn_offset + j) (row.getD (f.bflatn_offset + j) 0))
        (fun x hx => hjs x (by simp [hx]))
      refine ⟨by rw [List.foldl_cons, ihlen, List.length_set], ?_⟩
      intro i hi
      rw [List.foldl_cons, ihget i hi]
      have hne : f.bsatn_offset + j ≠ i := by omega
      simp [List.getD, List.getElem?_set_ne hne]
  exact key (List.range f.length) buf (fun j hj => List.mem_range.mp hj)

/-- C10. In every layout produced by `for_row_type`, every copy record `f`
satisfies `f.bsatn_offset + f.length ≤ bsatn_length`; consequently
`serialize_row_into` writes only within the first `bsatn_length` bytes of the
destination buffer (it leaves its length and every byte at or beyond
`bsatn_length` untouched). -/
theorem C10_copies_in_bounds (row_type : ProductElements) (sl : StaticBsatnLayout)
    (h : for_row_type row_type = some sl) :
    (∀ f ∈ sl.fields, f.bsatn_offset + f.length ≤ sl.bsatn_length) ∧
    ∀ buf row : List Nat,
      (sl.serialize_row_into buf row).length = buf.length ∧
      ∀ i, sl.bsatn_length ≤ i →
        (sl.serialize_row_into buf row).getD i 0 = buf.getD i 0 := by
  have hbound : ∀ f ∈ sl.fields, f.bsatn_offset + f.length ≤ sl.bsatn_length := by
    unfold for_row_type visit_product at h
    cases hv : visit_elements new_builder new_builder.next_bflatn_offset row_type with
    | none => rw [hv] at h; exact Option.noConfusion h
    | some b' =>
      rw [hv] at h
      cases Option.some.inj h
      have hinit : List.Chain' bsatnLink new_builder.fieldsList := by
        simp [new_builder, LayoutBuilder.fieldsList]
      obtain ⟨hcA, _⟩ := visit_elements_chainA row_type new_builder _ b' hv hinit
      have hchainF := bsatn_chain_filter b'.fieldsList hcA
      intro f hf
      exact bsatn_each_le_total _ hchainF f hf
  refine ⟨hbound, ?_⟩
  intro buf row
  unfold StaticBsatnLayout.serialize_row_into
  have key : ∀ (fs : List MemcpyField) (acc : List Nat),
      (∀ f ∈ fs, f.bsatn_offset + f.length ≤ sl.bsatn_length) →
      ((fs.foldl (fun acc f => f.copy acc row) acc).length = acc.length ∧
      ∀ i, sl.bsatn_length ≤ i →
        (fs.foldl (fun acc f => f.copy acc row) acc).getD i 0 = acc.getD i 0) := by
    intro fs
    induction fs with
    | nil => intro acc _; exact ⟨rfl, fun _ _ => rfl⟩
    | cons f fs' ih =>
      intro acc hfs
      obtain ⟨hclen, hcget⟩ := copy_preserves_beyond f acc row sl.bsatn_length
        (hfs f (by simp))
      obtain ⟨ihlen, ihget⟩ := ih (f.copy acc row) (fun x hx => hfs x (by simp [hx]))
      refine ⟨by rw [List.foldl_cons, ihlen, hclen], ?_⟩
      intro i hi
      rw [List.foldl_cons, ihget i hi, hcget i hi]
  exact key sl.fields buf hbound

/-- Witness for C10 at the spec's scenario S3. -/
theorem C10_copies_in_bounds_witness :
    for_row_type (.cons 0 (.Sum 16 (.cons (.Primitive 16) (.cons (.Primitive 16) .nil)))
      (.cons 32 (.Primitive 4) .nil)) = some ⟨21, [⟨0, 0, 1⟩, ⟨16, 1, 20⟩]⟩ ∧
    (∀ f ∈ (⟨21, [⟨0, 0, 1⟩, ⟨16, 1, 20⟩]⟩ : StaticBsatnLayout).fields,
      f.bsatn_offset + f.length
        ≤ (⟨21, [⟨0, 0, 1⟩, ⟨16, 1, 20⟩]⟩ : StaticBsatnLayout).bsatn_length) :=
  ⟨rfl, (C10_copies_in_bounds
    (.cons 0 (.Sum 16 (.cons (.Primitive 16) (.cons (.Primitive 16) .nil)))
      (.cons 32 (.Primitive 4) .nil))
    ⟨21, [⟨0, 0, 1⟩, ⟨16, 1, 20⟩]⟩ rfl).1⟩

end Tbl

namespace Vm

/-! The query-plan model of `crates/vm/src/expr.rs`. Identifiers
(`Identity`, `TableId`, `ColId`, `SourceId`) are modelled as natural
numbers. -/

abbrev Identity := Nat
abbrev TableId := Nat
abbrev ColId := Nat
abbrev SourceId := Nat

inductive StAccess where
  | Public
  | Private
deriving DecidableEq, Repr

inductive StTableType where
  | System
  | User
deriving DecidableEq, Repr

/-- A column reference: owning table plus column id. -/
structure FieldName where
  table : TableId
  col : ColId
deriving DecidableEq, Repr

/-- Modelled from the spec: `AlgebraicValue` of the sats crate (not included
in the sources), restricted to the value shapes the claims exercise:
unsigned integers, booleans, strings, and product values. -/
inductive AV where
  | u64 (n : Nat)
  | boolean (b : Bool)
  | str (s : String)
  | product (elems : List AV)

def AV.as_bool : AV → Option Bool
  | .boolean b => some b
  | _ => none

def AV.into_product : AV → Option (List AV)
  | .product l => some l
  | _ => none

mutual
def avBeq : AV → AV → Bool
  | .u64 a, .u64 b => a == b
  | .boolean a, .boolean b => a == b
  | .str a, .str b => a == b
  | .product a, .product b => avListBeq a b
  | _, _ => false
termination_by structural a => a

def avListBeq : List AV → List AV → Bool
  | [], [] => true
  | a :: as', b :: bs' => avBeq a b && avListBeq as' bs'
  | _, _ => false
termination_by structural l => l
end

/-- Modelled from the spec: the derived total order on `AlgebraicValue`
(variant rank first, then contents; products lexicographically). No claim
depends on the particular order, only on comparisons being total. -/
def AV.rank : AV → Nat
  | .u64 _ => 0
  | .boolean _ => 1
  | .str _ => 2
  | .product _ => 3

mutual
def avCompare : AV → AV → Ordering
  | .u64 a, .u64 b => compare a b
  | .boolean a, .boolean b => compare a b
  | .str a, .str b => compare a b
  | .product a, .product b => avListCompare a b
  | x, y => compare x.rank y.rank
termination_by structural a => a

def avListCompare : List AV → List AV → Ordering
  | [], [] => .eq
  | [], _ :: _ => .lt
  | _ :: _, [] => .gt
  | a :: as', b :: bs' =>
    match avCompare a b with
    | .eq => avListCompare as' bs'
    | o => o
termination_by structural l => l
end

inductive FieldExpr where
  | Name (f : FieldName)
  | Value (v : AV)

/-- Modelled from the spec: a header column (name plus declared type; the
type is never consulted by the modelled operations). -/
inductive AlgebraicType where
  | U64
  | Bool
  | Str
deriving DecidableEq, Repr

structure Column where
  field : FieldName
  col_ty : AlgebraicType
deriving Repr

/-- Modelled from the spec: declared constraints of an index entry; the
modelled operations only consult whether the entry is indexed (`indexed`,
`unique` and `primary_key` all index). -/
structure Constraints where
  has_indexed : Bool
deriving DecidableEq, Repr

def Constraints.indexed : Constraints := ⟨true⟩

/-- A nonempty ordered list of column ids, as the `ColList` of the
primitives crate. -/
structure ColList where
  head : ColId
  tail : List ColId
deriving DecidableEq, Repr

def ColList.is_singleton (cl : ColList) : Bool := cl.tail.isEmpty

def ColList.toList (cl : ColList) : List ColId := cl.head :: cl.tail

def ColList.len (cl : ColList) : Nat := cl.tail.length + 1

/-- Modelled from the spec: the header carries the column list, column
types, and the index declarations keyed by column-id list. Column ids are
positions in `fields`. -/
structure Header where
  table_id : TableId
  table_name : String
  fields : List Column
  constraints : List (ColList × Constraints)

/-- Position of a field in the header's column list. -/
def Header.column_pos (h : Header) (f : FieldName) : Option ColId :=
  h.fields.findIdx? (fun c => c.field = f)

/-- Resolve a field name to its column id and canonical name. -/
def Header.field_name (h : Header) (f : FieldName) : Option (ColId × FieldName) :=
  match h.fields.findIdx? (fun c => c.field = f) with
  | none => none
  | some i => (h.fields.get? i).map (fun c => (i, c.field))

/-- Modelled from the spec: whether the header declares an indexed
constraint exactly on the given field's column. -/
def Header.has_constraint (h : Header) (f : FieldName) : Bool :=
  h.constraints.any (fun e => e.1 = ⟨f.col, []⟩ && e.2.has_indexed)

structure DbTable where
  head : Header
  table_id : TableId
  table_type : StTableType
  table_access : StAccess

inductive SourceExpr where
  | InMemory (source_id : SourceId) (header : Header) (table_type : StTableType)
      (table_access : StAccess) (row_count : Nat)
  | DbTable (t : DbTable)

def SourceExpr.head : SourceExpr → Header
  | .InMemory _ h _ _ _ => h
  | .DbTable t => t.head

def SourceExpr.table_name (s : SourceExpr) : String := s.head.table_name

def SourceExpr.table_access : SourceExpr → StAccess
  | .InMemory _ _ _ a _ => a
  | .DbTable t => t.table_access

def SourceExpr.is_mem_table : SourceExpr → Bool
  | .InMemory .. => true
  | .DbTable _ => false

def SourceExpr.is_db_table (s : SourceExpr) : Bool := !s.is_mem_table

def SourceExpr.table_id : SourceExpr → Option TableId
  | .DbTable t => some t.table_id
  | _ => none

def SourceExpr.get_db_table : SourceExpr → Option Vm.DbTable
  | .DbTable t => some t
  | _ => none

/-- Modelled from the spec (section 7): the auth error kinds. -/
inductive AuthError where
  | TablePrivate (named : String)
  | OwnerRequired

/-- Modelled from the spec (section 7): evaluation error kinds.
`FieldBool` is the TypeError raised when a bool context sees a non-bool
value; `UnknownField` is the unknown-column error. -/
inductive EvalError where
  | FieldBool (v : AV)
  | UnknownField (f : FieldName)

/-! The predicate tree (`ColumnOp`) and its evaluation. -/

inductive OpCmp where
  | Eq
  | NotEq
  | Lt
  | LtEq
  | Gt
  | GtEq
deriving DecidableEq, Repr

inductive OpLogic where
  | And
  | Or
deriving DecidableEq, Repr

inductive OpQuery where
  | Cmp (c : OpCmp)
  | Logic (l : OpLogic)
deriving DecidableEq, Repr

inductive ColumnOp where
  | Field (f : FieldExpr)
  | Cmp (op : OpQuery) (lhs rhs : ColumnOp)

def ColumnOp.new (op : OpQuery) (lhs rhs : ColumnOp) : ColumnOp := .Cmp op lhs rhs

def ColumnOp.cmp (field : FieldName) (op : OpCmp) (value : AV) : ColumnOp :=
  .Cmp (.Cmp op) (.Field (.Name field)) (.Field (.Value value))

/-- Logical AND of two predicates. -/
def ColumnOp.and (lhs rhs : ColumnOp) : ColumnOp := .Cmp (.Logic .And) lhs rhs

/-- Evaluation of a comparison operator on two values, via the derived
order on `AlgebraicValue`. -/
def cmp_eval (c : OpCmp) (l r : AV) : Bool :=
  match c with
  | .Eq => avBeq l r
  | .NotEq => !(avBeq l r)
  | .Lt => avCompare l r == .lt
  | .LtEq => avCompare l r != .gt
  | .Gt => avCompare l r == .gt
  | .GtEq => avCompare l r != .lt

/-- Modelled from the spec: `RelValue::get` resolves a field leaf to the
row's value through the header, and a literal leaf to itself; unknown
columns fail. Rows are value lists indexed by column id. -/
def row_get (row : List AV) (header : Header) : FieldExpr → Except EvalError AV
  | .Name n =>
    match header.column_pos n with
    | none => .error (.UnknownField n)
    | some i =>
      match row.get? i with
      | none => .error (.UnknownField n)
      | some v => .ok v
  | .Value v => .ok v

mutual
/-- `ColumnOp::reduce`: evaluate a predicate node in value position. The
source funnels both `Cmp` arms through `compare_bin_op`; its body is inlined
here to keep the recursion structural, and `compare_bin_op` below is the
wrapper (equal by `compare_bin_op_eq`). -/
def reduce (row : List AV) (header : Header) : ColumnOp → Except EvalError AV
  | .Field f => row_get row header f
  | .Cmp op lhs rhs =>
    match op with
    | .Cmp c =>
      match reduce row header lhs with
      | .error e => .error e
      | .ok l =>
        match reduce row header rhs with
        | .error e => .error e
        | .ok r => .ok (.boolean (cmp_eval c l r))
    | .Logic lop =>
      match reduce_bool row header lhs with
      | .error e => .error e
      | .ok l =>
        match reduce_bool row header rhs with
        | .error e => .error e
        | .ok r => .ok (.boolean (match lop with | .And => l && r | .Or => l || r))
termination_by structural t => t

/-- `ColumnOp::reduce_bool`: evaluate a predicate node in bool position;
a field leaf resolving to a non-bool value is the `FieldBool` type error. -/
def reduce_bool (row : List AV) (header : Header) : ColumnOp → Except EvalError Bool
  | .Field f =>
    match row_get row header f with
    | .error e => .error e
    | .ok v =>
      match v.as_bool with
      | some b => .ok b
      | none => .error (.FieldBool v)
  | .Cmp op lhs rhs =>
    match op with
    | .Cmp c =>
      match reduce row header lhs with
      | .error e => .error e
      | .ok l =>
        match reduce row header rhs with
        | .error e => .error e
        | .ok r => .ok (cmp_eval c l r)
    | .Logic lop =>
      match reduce_bool row header lhs with
      | .error e => .error e
      | .ok l =>
        match reduce_bool row header rhs with
        | .error e => .error e
        | .ok r => .ok (match lop with | .And => l && r | .Or => l || r)
termination_by structural t => t
end

/-- `ColumnOp::compare_bin_op`. -/
def compare_bin_op (row : List AV) (header : Header) (op : OpQuery)
    (lhs rhs : ColumnOp) : Except EvalError Bool :=
  match op with
  | .Cmp c =>
    match reduce row header lhs with
    | .error e => .error e
    | .ok l =>
      match reduce row header rhs with
      | .error e => .error e
      | .ok r => .ok (cmp_eval c l r)
  | .Logic lop =>
    match reduce_bool row header lhs with
    | .error e => .error e
    | .ok l =>
      match reduce_bool row header rhs with
      | .error e => .error e
      | .ok r => .ok (match lop with | .And => l && r | .Or => l || r)

theorem compare_bin_op_eq (row : List AV) (header : Header) (op : OpQuery)
    (lhs rhs : ColumnOp) :
    compare_bin_op row header op lhs rhs = reduce_bool row header (.Cmp op lhs rhs) := by
  cases op <;> rfl

/-- `ColumnOp::compare`: the top-level bool evaluation. On a bare field leaf
the source unwraps `as_bool`, i.e. it panics on a non-bool value; the panic
is modelled as `none`. -/
def ColumnOp.compare (op : ColumnOp) (row : List AV) (header : Header) :
    Option (Except EvalError Bool) :=
  match op with
  | .Field f =>
    match row_get row header f with
    | .error e => some (.error e)
    | .ok v =>
      match v.as_bool with
      | some b => some (.ok b)
      | none => none
  | .Cmp op lhs rhs => some (compare_bin_op row header op lhs rhs)

/-- `ColumnOp::flatten_ands`, inner `fill_vec`. -/
def flatten_ands_fill (buf : List ColumnOp) : ColumnOp → List ColumnOp
  | .Cmp (.Logic .And) lhs rhs => flatten_ands_fill (flatten_ands_fill buf lhs) rhs
  | op => buf ++ [op]
termination_by structural t => t

def ColumnOp.flatten_ands (op : ColumnOp) : List ColumnOp := flatten_ands_fill [] op

/-! Claim C7: type errors in bool contexts. `BoolViol` captures, following
the evaluation order, that the first failure encountered when evaluating a
predicate in bool position is a field leaf resolving to a non-bool value;
`ValViol` is the same for value position (where only nested comparison nodes
open new bool contexts). -/

inductive BoolViol (row : List AV) (header : Header) : ColumnOp → Prop where
  | field (f : FieldExpr) (v : AV) :
      row_get row header f = .ok v → v.as_bool = none → BoolViol row header (.Field f)
  | logic_lhs (lop : OpLogic) (l r : ColumnOp) :
      BoolViol row header l → BoolViol row header (.Cmp (.Logic lop) l r)
  | logic_rhs (lop : OpLogic) (l r : ColumnOp) (b : Bool) :
      reduce_bool row header l = .ok b → BoolViol row header r →
      BoolViol row header (.Cmp (.Logic lop) l r)
  | cmp_lhs (c : OpCmp) (op : OpQuery) (a b r : ColumnOp) :
      BoolViol row header (.Cmp op a b) →
      BoolViol row header (.Cmp (.Cmp c) (.Cmp op a b) r)
  | cmp_rhs (c : OpCmp) (l : ColumnOp) (op : OpQuery) (a b : ColumnOp) (v : AV) :
      reduce row header l = .ok v → BoolViol row header (.Cmp op a b) →
      BoolViol row header (.Cmp (.Cmp c) l (.Cmp op a b))

theorem reduce_cmp_eq_map (row : List AV) (header : Header) (op : OpQuery)
    (l r : ColumnOp) :
    reduce row header (.Cmp op l r)
      = (reduce_bool row header (.Cmp op l r)).map AV.boolean := by
  cases op with
  | Cmp c =>
    cases h1 : reduce row header l <;> cases h2 : reduce row header r <;>
      simp [reduce, reduce_bool, h1, h2, Except.map]
  | Logic lop =>
    cases h1 : reduce_bool row header l <;> cases h2 : reduce_bool row header r <;>
      simp [reduce, reduce_bool, h1, h2, Except.map]

theorem boolViol_reduce_bool (row : List AV) (header : Header) (p : ColumnOp)
    (h : BoolViol row header p) :
    ∃ v, reduce_bool row header p = .error (.FieldBool v) := by
  induction h with
  | field f v hget hbool => exact ⟨v, by simp [reduce_bool, hget, hbool]⟩
  | logic_lhs lop l r _ ih =>
    obtain ⟨v, hv⟩ := ih
    exact ⟨v, by simp [reduce_bool, hv]⟩
  | logic_rhs lop l r b hok _ ih =>
    obtain ⟨v, hv⟩ := ih
    exact ⟨v, by simp [reduce_bool, hok, hv]⟩
  | cmp_lhs c op a b r _ ih =>
    obtain ⟨v, hv⟩ := ih
    have hred : reduce row header (.Cmp op a b) = .error (.FieldBool v) := by
      rw [reduce_cmp_eq_map, hv]; rfl
    exact ⟨v, by simp [reduce_bool, hred]⟩
  | cmp_rhs c l op a b v0 hok _ ih =>
    obtain ⟨v, hv⟩ := ih
    have hred : reduce row header (.Cmp op a b) = .error (.FieldBool v) := by
      rw [reduce_cmp_eq_map, hv]; rfl
    exact ⟨v, by simp [reduce_bool, hok, hred]⟩

/-- C7 (amended). Whenever evaluating a predicate in bool position first
fails on a field leaf that resolves to a non-bool value, `reduce_bool`
returns the `FieldBool` type error; `compare` agrees on every comparison
node, but on a bare field leaf it panics (unwraps) instead of returning the
error. -/
theorem C7_bool_context_amended (p : ColumnOp) (row : List AV) (header : Header)
    (h : BoolViol row header p) :
    (∃ v, reduce_bool row header p = .error (.FieldBool v)) ∧
    (∀ op l r, p = .Cmp op l r →
      ∃ v, p.compare row header = some (.error (.FieldBool v))) ∧
    (∀ f, p = .Field f → p.compare row header = none) := by
  refine ⟨boolViol_reduce_bool row header p h, ?_, ?_⟩
  · intro op l r hp
    subst hp
    obtain ⟨v, hv⟩ := boolViol_reduce_bool row header _ h
    refine ⟨v, ?_⟩
    rw [ColumnOp.compare, compare_bin_op_eq, hv]
  · intro f hp
    subst hp
    cases h with
    | field f v hget hbool => simp [ColumnOp.compare, hget, hbool]

def fn0 : FieldName := ⟨0, 0⟩

def header0 : Header := ⟨0, "t", [⟨fn0, .U64⟩], []⟩

def row0 : List AV := [.u64 5]

/-- Witness for C7 at a concrete violating input. -/
theorem C7_bool_context_amended_witness :
    (∃ v, reduce_bool row0 header0
      (.Cmp (.Logic .And) (.Field (.Name fn0)) (.Field (.Name fn0)))
      = .error (.FieldBool v)) ∧
    (∀ op l r, (ColumnOp.Cmp (.Logic .And) (.Field (.Name fn0)) (.Field (.Name fn0)))
        = .Cmp op l r →
      ∃ v, (ColumnOp.Cmp (.Logic .And) (.Field (.Name fn0))
        (.Field (.Name fn0))).compare row0 header0 = some (.error (.FieldBool v))) ∧
    (∀ f, (ColumnOp.Cmp (.Logic .And) (.Field (.Name fn0)) (.Field (.Name fn0)))
        = .Field f →
      (ColumnOp.Cmp (.Logic .And) (.Field (.Name fn0))
        (.Field (.Name fn0))).compare row0 header0 = none) :=
  C7_bool_context_amended _ row0 header0
    (.logic_lhs .And _ _ (.field (.Name fn0) (.u64 5) (by rfl) (by rfl)))

/-- Counterexample to C7 as stated: a bare non-bool field leaf in bool
position makes `compare` panic (modelled `none`) instead of returning an
`Err` of TypeError kind. -/
theorem C7_compare_panics_counterexample :
    row_get row0 header0 (.Name fn0) = .ok (.u64 5) ∧
    (AV.u64 5).as_bool = none ∧
    (ColumnOp.Field (.Name fn0)).compare row0 header0 = none := ⟨rfl, rfl, rfl⟩

/-! Claim C9: flatten-AND round trip. -/

/-- AND-reduce `reduce_bool` over a list of predicates: elements are
evaluated in order, the first error wins, and the boolean results are
conjoined. -/
def fold_and_reduce_bool (row : List AV) (header : Header) :
    List ColumnOp → Except EvalError Bool
  | [] => .ok true
  | x :: rest =>
    match reduce_bool row header x with
    | .error e => .error e
    | .ok b =>
      match fold_and_reduce_bool row header rest with
      | .error e => .error e
      | .ok bs => .ok (b && bs)

theorem flatten_fill_eq (op : ColumnOp) :
    ∀ (buf : List ColumnOp), flatten_ands_fill buf op = buf ++ op.flatten_ands := by
  induction op with
  | Field f => intro buf; simp [flatten_ands_fill, ColumnOp.flatten_ands]
  | Cmp o l r ihl ihr =>
    intro buf
    cases o with
    | Cmp c => simp [flatten_ands_fill, ColumnOp.flatten_ands]
    | Logic lop =>
      cases lop with
      | Or => simp [flatten_ands_fill, ColumnOp.flatten_ands]
      | And =>
        have h2 : (ColumnOp.Cmp (.Logic .And) l r).flatten_ands
            = l.flatten_ands ++ r.flatten_ands := ihr l.flatten_ands
        calc flatten_ands_fill buf (.Cmp (.Logic .And) l r)
            = flatten_ands_fill (flatten_ands_fill buf l) r := rfl
          _ = flatten_ands_fill (buf ++ l.flatten_ands) r := by rw [ihl]
          _ = (buf ++ l.flatten_ands) ++ r.flatten_ands := ihr _
          _ = buf ++ (l.flatten_ands ++ r.flatten_ands) := List.append_assoc _ _ _
          _ = buf ++ (ColumnOp.Cmp (.Logic .And) l r).flatten_ands := by rw [h2]

theorem fold_and_append (row : List AV) (header : Header) (xs ys : List ColumnOp) :
    fold_and_reduce_bool row header (xs ++ ys)
      = match fold_and_reduce_bool row header xs with
        | .error e => .error e
        | .ok a =>
          match fold_and_reduce_bool row header ys with
          | .error e => .error e
          | .ok b => .ok (a && b) := by
  induction xs with
  | nil =>
    cases hy : fold_and_reduce_bool row header ys <;>
      simp [fold_and_reduce_bool, hy]
  | cons x xs' ih =>
    cases hx : reduce_bool row header x with
    | error e => simp [fold_and_reduce_bool, hx]
    | ok b =>
      cases hxs : fold_and_reduce_bool row header xs' with
      | error e => simp [fold_and_reduce_bool, hx, hxs, ih]
      | ok a =>
        cases hy : fold_and_reduce_bool row header ys with
        | error e => simp [fold_and_reduce_bool, hx, hxs, hy, ih]
        | ok c => simp [fold_and_reduce_bool, hx, hxs, hy, ih, Bool.and_assoc]

theorem fold_flatten_eq (row : List AV) (header : Header) (p : ColumnOp) :
    fold_and_reduce_bool row header p.flatten_ands = reduce_bool row header p := by
  induction p with
  | Field f =>
    cases hb : reduce_bool row header (.Field f) <;>
      simp [ColumnOp.flatten_ands, flatten_ands_fill, fold_and_reduce_bool, hb]
  | Cmp o l r ihl ihr =>
    cases o with
    | Cmp c =>
      cases hb : reduce_bool row header (.Cmp (.Cmp c) l r) <;>
        simp [ColumnOp.flatten_ands, flatten_ands_fill, fold_and_reduce_bool, hb]
    | Logic lop =>
      cases lop with
      | Or =>
        cases hb : reduce_bool row header (.Cmp (.Logic .Or) l r) <;>
          simp [ColumnOp.flatten_ands, flatten_ands_fill, fold_and_reduce_bool, hb]
      | And =>
        have hfl : (ColumnOp.Cmp (.Logic .And) l r).flatten_ands
            = l.flatten_ands ++ r.flatten_ands := by
          show flatten_ands_fill (flatten_ands_fill [] l) r = _
          rw [flatten_fill_eq r, flatten_fill_eq l]
          simp
        rw [hfl, fold_and_append, ihl, ihr]
        cases hl : reduce_bool row header l <;> cases hr : reduce_bool row header r <;>
          simp [reduce_bool, hl, hr]

/-- C9 (amended). For every predicate tree, row and header, AND-reducing
`reduce_bool` over `flatten_ands` (elements in order, first error wins)
yields exactly `reduce_bool` of the original predicate; and on every
comparison node `compare` computes that same outcome. The round trip fails
only for `compare` on a bare non-bool field leaf, which panics (see the
counterexample). -/
theorem C9_flatten_ands_round_trip (row : List AV) (header : Header) :
    (∀ p : ColumnOp,
      fold_and_reduce_bool row header p.flatten_ands = reduce_bool row header p) ∧
    (∀ (op : OpQuery) (l r : ColumnOp),
      (ColumnOp.Cmp op l r).compare row header
        = some (fold_and_reduce_bool row header (ColumnOp.Cmp op l r).flatten_ands)) := by
  refine ⟨fold_flatten_eq row header, ?_⟩
  intro op l r
  rw [fold_flatten_eq row header]
  rw [ColumnOp.compare, compare_bin_op_eq]

/-- AND-reduce `compare` over a list of predicates, propagating the panic
(`none`): the claim's literal reading, used by the counterexample. -/
def fold_and_compare (row : List AV) (header : Header) :
    List ColumnOp → Option (Except EvalError Bool)
  | [] => some (.ok true)
  | x :: rest =>
    match ColumnOp.compare x row header with
    | none => none
    | some (.error e) => some (.error e)
    | some (.ok b) =>
      match fold_and_compare row header rest with
      | none => none
      | some (.error e) => some (.error e)
      | some (.ok bs) => some (.ok (b && bs))

/-- Counterexample to C9 as stated: on `AND(f, f)` with `f` a non-bool
field, `compare` on the whole tree returns the `FieldBool` error, while
evaluating the flattened elements with `compare` and AND-reducing panics
on the first element — the outcomes differ. -/
theorem C9_flatten_ands_counterexample :
    (ColumnOp.Cmp (.Logic .And) (.Field (.Name fn0)) (.Field (.Name fn0))).compare
        row0 header0 = some (.error (.FieldBool (.u64 5))) ∧
    fold_and_compare row0 header0
      (ColumnOp.Cmp (.Logic .And) (.Field (.Name fn0))
        (.Field (.Name fn0))).flatten_ands = none ∧
    fold_and_compare row0 header0
      (ColumnOp.Cmp (.Logic .And) (.Field (.Name fn0))
        (.Field (.Name fn0))).flatten_ands
      ≠ (ColumnOp.Cmp (.Logic .And) (.Field (.Name fn0))
        (.Field (.Name fn0))).compare row0 header0 := by
  refine ⟨rfl, rfl, ?_⟩
  intro hcontra
  rw [show fold_and_compare row0 header0
      (ColumnOp.Cmp (.Logic .And) (.Field (.Name fn0))
        (.Field (.Name fn0))).flatten_ands = none from rfl] at hcontra
  rw [show (ColumnOp.Cmp (.Logic .And) (.Field (.Name fn0))
      (.Field (.Name fn0))).compare row0 header0
      = some (.error (.FieldBool (.u64 5))) from rfl] at hcontra
  exact Option.noConfusion hcontra

/-! The plan algebra: `IndexScan`, `IndexJoin`, `JoinExpr`, `Query`,
`QueryExpr`. -/

/-- Modelled from the spec / std: `Bound<AlgebraicValue>`. -/
inductive Bnd where
  | Unbounded
  | Included (v : AV)
  | Excluded (v : AV)

structure IndexScan where
  table : DbTable
  columns : ColList
  bounds : Bnd × Bnd

mutual
inductive Query where
  | IndexScan (scan : Vm.IndexScan)
  | IndexJoin (join : Vm.IndexJoin)
  | Select (op : ColumnOp)
  | Project (cols : List FieldExpr) (wildcard_table_id : Option TableId)
  | JoinInner (join : JoinExpr)

inductive IndexJoin where
  | mk (probe_side : QueryExpr) (probe_field : FieldName) (index_side : SourceExpr)
      (index_select : Option ColumnOp) (index_col : ColId) (return_index_rows : Bool)

inductive JoinExpr where
  | mk (rhs : QueryExpr) (col_lhs col_rhs : FieldName) (semi : Bool)

inductive QueryExpr where
  | mk (source : SourceExpr) (query : List Query)
end

def IndexJoin.probe_side : IndexJoin → QueryExpr
  | .mk p _ _ _ _ _ => p

def IndexJoin.probe_field : IndexJoin → FieldName
  | .mk _ f _ _ _ _ => f

def IndexJoin.index_side : IndexJoin → SourceExpr
  | .mk _ _ s _ _ _ => s

def IndexJoin.index_select : IndexJoin → Option ColumnOp
  | .mk _ _ _ s _ _ => s

def IndexJoin.index_col : IndexJoin → ColId
  | .mk _ _ _ _ c _ => c

def IndexJoin.return_index_rows : IndexJoin → Bool
  | .mk _ _ _ _ _ r => r

def JoinExpr.rhs : JoinExpr → QueryExpr
  | .mk r _ _ _ => r

def JoinExpr.semi : JoinExpr → Bool
  | .mk _ _ _ s => s

def QueryExpr.source : QueryExpr → SourceExpr
  | .mk s _ => s

def QueryExpr.query : QueryExpr → List Query
  | .mk _ q => q

/-! Claim C1: the access gate. `Query::sources` yields, left to right, the
sources involved in an operator: nothing for `Select`/`Project`, the scanned
table for `IndexScan`, the probe side's sources for `IndexJoin`, and the
right-hand side's sources for `JoinInner`. -/

mutual
def QueryExpr.sources : QueryExpr → List SourceExpr
  | .mk source query => source :: query_list_sources query
termination_by structural q => q

def query_list_sources : List Query → List SourceExpr
  | [] => []
  | q :: rest => q.sources ++ query_list_sources rest
termination_by structural l => l

def Query.sources : Query → List SourceExpr
  | .Select _ => []
  | .Project _ _ => []
  | .IndexScan scan => [SourceExpr.DbTable scan.table]
  | .IndexJoin (.mk probe_side _ _ _ _ _) => probe_side.sources
  | .JoinInner (.mk rhs _ _ _) => rhs.sources
termination_by structural q => q
end

def SourceExpr.check_auth (s : SourceExpr) (owner caller : Identity) :
    Except AuthError Unit :=
  if owner = caller ∨ s.table_access = .Public then .ok ()
  else .error (.TablePrivate s.table_name)

/-- The loop body of `Query::check_auth`: fail on the first `Private`
source. -/
def check_sources_private : List SourceExpr → Except AuthError Unit
  | [] => .ok ()
  | t :: rest =>
    if t.table_access = .Private then .error (.TablePrivate t.table_name)
    else check_sources_private rest

def Query.check_auth (q : Query) (owner caller : Identity) : Except AuthError Unit :=
  if owner = caller then .ok ()
  else check_sources_private q.sources

def check_query_list (owner caller : Identity) : List Query → Except AuthError Unit
  | [] => .ok ()
  | q :: rest =>
    match q.check_auth owner caller with
    | .error e => .error e
    | .ok _ => check_query_list owner caller rest

def QueryExpr.check_auth (qe : QueryExpr) (owner caller : Identity) :
    Except AuthError Unit :=
  if owner = caller then .ok ()
  else
    match qe.source.check_auth owner caller with
    | .error e => .error e
    | .ok _ => check_query_list owner caller qe.query

/-- The private table of the C1 failing input. -/
def c1_private_table : DbTable :=
  ⟨⟨1, "t_priv", [⟨⟨1, 0⟩, .U64⟩], []⟩, 1, .User, .Private⟩

/-- The public table of the C1 failing input. -/
def c1_public_table : DbTable :=
  ⟨⟨2, "t_pub", [⟨⟨2, 0⟩, .U64⟩], []⟩, 2, .User, .Public⟩

/-- The C1 failing input: a plan over a public source whose only operator is
an `IndexJoin` with a `Private` index side. -/
def c1_plan : QueryExpr :=
  .mk (.DbTable c1_public_table)
    [.IndexJoin (.mk (.mk (.DbTable c1_public_table) [])
      ⟨2, 0⟩ (.DbTable c1_private_table) none 0 true)]

/-- C1 (code bug). `Query::sources` omits the `index_side` of an
`IndexJoin`, so `check_auth` admits, for a caller distinct from the owner, a
plan whose index join reads a `Private` table: it returns `Ok` where the
claim requires `Err(TablePrivate "t_priv")`. -/
theorem C1_check_auth_misses_index_side :
    (0 : Identity) ≠ (1 : Identity) ∧
    c1_plan.query = [.IndexJoin (.mk (.mk (.DbTable c1_public_table) [])
      ⟨2, 0⟩ (.DbTable c1_private_table) none 0 true)] ∧
    (SourceExpr.DbTable c1_private_table).table_access = .Private ∧
    c1_plan.check_auth 0 1 = .ok () ∧
    ¬ (SourceExpr.DbTable c1_private_table) ∈ c1_plan.sources := by
  refine ⟨by decide, rfl, rfl, rfl, ?_⟩
  intro hmem
  have hpub : (SourceExpr.DbTable c1_private_table).table_access = .Public := by
    rw [show c1_plan.sources
        = [.DbTable c1_public_table, .DbTable c1_public_table] from rfl] at hmem
    rcases List.mem_cons.mp hmem with h | hmem2
    · rw [h]; rfl
    · rcases List.mem_cons.mp hmem2 with h | hmem3
      · rw [h]; rfl
      · cases hmem3
  exact absurd hpub (by decide)

/-! Claim C3: semijoin recognition. -/

/-- `QueryExpr::try_semi_join`: turn a leading non-semi `JoinInner`
immediately followed by a wildcard `Project` of the source table into a
semijoin; bail (returning the plan unchanged) in every other case. -/
def QueryExpr.try_semi_join (q : QueryExpr) : QueryExpr :=
  match q with
  | .mk source query =>
    match source.table_id with
    | none => .mk source query
    | some source_table_id =>
      match query with
      | [] => .mk source []
      | join_candidate :: exprs =>
        match join_candidate with
        | .JoinInner (.mk rhs col_lhs col_rhs false) =>
          match exprs with
          | [] => .mk source [.JoinInner (.mk rhs col_lhs col_rhs false)]
          | project_candidate :: exprs' =>
            match project_candidate with
            | .Project cols (some wildcard_table_id) =>
              if wildcard_table_id ≠ source_table_id then
                .mk source (.JoinInner (.mk rhs col_lhs col_rhs false)
                  :: .Project cols (some wildcard_table_id) :: exprs')
              else
                .mk source (.JoinInner (.mk rhs col_lhs col_rhs true) :: exprs')
            | other => .mk source (.JoinInner (.mk rhs col_lhs col_rhs false)
                :: other :: exprs')
        | other => .mk source (other :: exprs)

/-- The rewrite pattern of `try_semi_join`: a `DbTable` source, a leading
non-semi inner join, and an immediately following wildcard project naming
the source's table id. -/
def semi_join_pattern : QueryExpr → Bool
  | .mk source (.JoinInner (.mk _ _ _ false) :: .Project _ (some wid) :: _) =>
    source.table_id == some wid
  | _ => false

/-- C3. `try_semi_join` rewrites a plan exactly when its source is a
`DbTable`, its first operator is a non-semi `JoinInner`, and its second
operator is a `Project` whose wildcard table id equals the source's table
id; the rewrite replaces the two operators by the same join with
`semi = true` (dropping the project, keeping the source and the remaining
operators); in every other case the plan is returned unchanged. -/
theorem C3_try_semi_join_characterization :
    (∀ (source : SourceExpr) (tid : TableId) (rhs : QueryExpr)
        (cl cr : FieldName) (cols : List FieldExpr) (rest : List Query),
      source.table_id = some tid →
      QueryExpr.try_semi_join
        (.mk source (.JoinInner (.mk rhs cl cr false)
          :: .Project cols (some tid) :: rest))
        = .mk source (.JoinInner (.mk rhs cl cr true) :: rest)) ∧
    (∀ q : QueryExpr, semi_join_pattern q = false → q.try_semi_join = q) := by
  constructor
  · intro source tid rhs cl cr cols rest htid
    rw [QueryExpr.try_semi_join, htid]
    simp
  · intro q hpat
    match q with
    | .mk source query =>
      rw [QueryExpr.try_semi_join]
      cases htid : source.table_id with
      | none => rfl
      | some tid =>
        match query with
        | [] => rfl
        | .IndexScan s :: exprs => rfl
        | .IndexJoin j :: exprs => rfl
        | .Select op :: exprs => rfl
        | .Project cols w :: exprs => rfl
        | .JoinInner (.mk rhs cl cr true) :: exprs => rfl
        | [.JoinInner (.mk rhs cl cr false)] => rfl
        | .JoinInner (.mk rhs cl cr false) :: .IndexScan s :: exprs' => rfl
        | .JoinInner (.mk rhs cl cr false) :: .IndexJoin j :: exprs' => rfl
        | .JoinInner (.mk rhs cl cr false) :: .Select op :: exprs' => rfl
        | .JoinInner (.mk rhs cl cr false) :: .JoinInner j :: exprs' => rfl
        | .JoinInner (.mk rhs cl cr false) :: .Project cols none :: exprs' => rfl
        | .JoinInner (.mk rhs cl cr false) :: .Project cols (some wid) :: exprs' =>
          rw [semi_join_pattern, htid] at hpat
          have hne : wid ≠ tid := by
            intro he
            rw [he] at hpat
            simp at hpat
          simp [hne]

/-- Witness for C3: the rewrite fires on the spec's S6 shape and leaves the
S7 shape (project naming the right-hand table) unchanged. -/
theorem C3_try_semi_join_witness :
    (QueryExpr.try_semi_join
      (.mk (.DbTable c1_public_table)
        [.JoinInner (.mk (.mk (.DbTable c1_private_table) []) ⟨2, 0⟩ ⟨1, 0⟩ false),
         .Project [.Name ⟨2, 0⟩] (some 2)])
      = .mk (.DbTable c1_public_table)
        [.JoinInner (.mk (.mk (.DbTable c1_private_table) []) ⟨2, 0⟩ ⟨1, 0⟩ true)]) ∧
    (QueryExpr.try_semi_join
      (.mk (.DbTable c1_public_table)
        [.JoinInner (.mk (.mk (.DbTable c1_private_table) []) ⟨2, 0⟩ ⟨1, 0⟩ false),
         .Project [.Name ⟨1, 0⟩] (some 1)])
      = .mk (.DbTable c1_public_table)
        [.JoinInner (.mk (.mk (.DbTable c1_private_table) []) ⟨2, 0⟩ ⟨1, 0⟩ false),
         .Project [.Name ⟨1, 0⟩] (some 1)]) :=
  ⟨C3_try_semi_join_characterization.1 (.DbTable c1_public_table) 2
      (.mk (.DbTable c1_private_table) []) ⟨2, 0⟩ ⟨1, 0⟩ [.Name ⟨2, 0⟩] [] rfl,
    C3_try_semi_join_characterization.2 _ rfl⟩

/-! Claim C2: index selection (`select_best_index`). -/

inductive IndexArgument where
  | Eq (columns : ColList) (value : AV)
  | LowerBound (columns : ColList) (value : AV) (inclusive : Bool)
  | UpperBound (columns : ColList) (value : AV) (inclusive : Bool)

inductive IndexColumnOp where
  | Index (arg : IndexArgument)
  | Scan (op : ColumnOp)

/-- `make_index_arg`. The source panics (`NotEq` is unreachable); the
`NotEq` arm is never exercised since `select_best_index`'s comparison list
omits it, and is mapped arbitrarily here. -/
def make_index_arg (cmp : OpCmp) (columns : ColList) (value : AV) : IndexColumnOp :=
  match cmp with
  | .Eq => .Index (.Eq columns value)
  | .NotEq => .Index (.Eq columns value)
  | .Lt => .Index (.UpperBound columns value false)
  | .Gt => .Index (.LowerBound columns value false)
  | .LtEq => .Index (.UpperBound columns value true)
  | .GtEq => .Index (.LowerBound columns value true)

/-- One constraint `field cmp value`, keeping the node it came from. -/
structure FieldValue where
  parent : ColumnOp
  cmp : OpCmp
  field : FieldName
  value : AV

/-- Declaration-order rank of `OpCmp`, the derived `Ord` of the operator
module (not included in the sources; the rank order only affects the
relative order of leftover scans on distinct keys). -/
def OpCmp.rank : OpCmp → Nat
  | .Eq => 0
  | .NotEq => 1
  | .Lt => 2
  | .LtEq => 3
  | .Gt => 4
  | .GtEq => 5

abbrev MapKey := ColId × OpCmp

def key_lt (a b : MapKey) : Bool :=
  a.1 < b.1 || (a.1 == b.1 && a.2.rank < b.2.rank)

/-- The `BTreeMap<(ColId, OpCmp), SmallVec<FieldValue>>` of
`select_best_index`, modelled as a key-sorted association list. -/
abbrev FieldsMap := List (MapKey × List FieldValue)

def map_insert : FieldsMap → MapKey → FieldValue → FieldsMap
  | [], k, fv => [(k, [fv])]
  | (k', vs) :: rest, k, fv =>
    if k = k' then (k', vs ++ [fv]) :: rest
    else if key_lt k k' then (k, [fv]) :: (k', vs) :: rest
    else (k', vs) :: map_insert rest k fv

def map_remove : FieldsMap → MapKey → List FieldValue × FieldsMap
  | [], _ => ([], [])
  | (k', vs) :: rest, k =>
    if k = k' then (vs, rest)
    else
      let (r, m') := map_remove rest k
      (r, (k', vs) :: m')

def map_get : FieldsMap → MapKey → Option (List FieldValue)
  | [], _ => none
  | (k', vs) :: rest, k => if k = k' then some vs else map_get rest k

/-- The multi-column pop: take the last pending constraint for the key and
drop the entry if it becomes empty. -/
def map_pop : FieldsMap → MapKey → Option (FieldValue × FieldsMap)
  | [], _ => none
  | (k', vs) :: rest, k =>
    if k = k' then
      match vs.getLast? with
      | none => none
      | some fv =>
        let vs' := vs.dropLast
        some (fv, if vs'.isEmpty then rest else (k', vs') :: rest)
    else (map_pop rest k).map (fun p => (p.1, (k', vs) :: p.2))

/-- `ext_field_val`: `lhs` is an existing field name and `rhs` a literal. -/
def ext_field_val (header : Header) (lhs rhs : ColumnOp) :
    Option (ColId × FieldName × AV) :=
  match lhs, rhs with
  | .Field (.Name name), .Field (.Value val) =>
    (header.field_name name).map (fun p => (p.1, p.2, val))
  | _, _ => none

/-- `ext_cmp_field_val`: the node is `name cmp value` with an existing
column. -/
def ext_cmp_field_val (header : Header) (op : ColumnOp) :
    Option (OpCmp × ColId × FieldName × AV) :=
  match op with
  | .Cmp (.Cmp c) lhs rhs => (ext_field_val header lhs rhs).map (fun p => (c, p))
  | _ => none

/-- `extract_fields`: constraints of shape `field cmp value` (or a binary
AND of two such) go into the map; every other node becomes a `Scan`
immediately. -/
def extract_fields (header : Header) :
    List ColumnOp → FieldsMap → List IndexColumnOp → FieldsMap × List IndexColumnOp
  | [], m, found => (m, found)
  | op :: rest, m, found =>
    match op with
    | .Cmp (.Cmp c) lhs rhs =>
      match ext_field_val header lhs rhs with
      | some (col, field, val) =>
        extract_fields header rest (map_insert m (col, c) ⟨op, c, field, val⟩) found
      | none => extract_fields header rest m (found ++ [.Scan op])
    | .Cmp (.Logic .And) lhs rhs =>
      match ext_cmp_field_val header lhs, ext_cmp_field_val header rhs with
      | some (op_lhs, col_lhs_id, col_lhs, val_lhs),
        some (op_rhs, col_rhs_id, col_rhs, val_rhs) =>
        extract_fields header rest
          (map_insert (map_insert m (col_lhs_id, op_lhs) ⟨op, op_lhs, col_lhs, val_lhs⟩)
            (col_rhs_id, op_rhs) ⟨op, op_rhs, col_rhs, val_rhs⟩)
          found
      | _, _ => extract_fields header rest m (found ++ [.Scan op])
    | _ => extract_fields header rest m (found ++ [.Scan op])

/-- Stable insertion by descending column-list length (the source sorts with
`Reverse(len)` as the key; equal lengths keep declaration order, which no
claim depends on). -/
def insert_by_len (cl : ColList) : List ColList → List ColList
  | [] => [cl]
  | c :: rest => if cl.len ≥ c.len then cl :: c :: rest else c :: insert_by_len cl rest

def sort_by_len_desc (l : List ColList) : List ColList := l.foldr insert_by_len []

/-- Pop one pending constraint per column of a multi-column index, in
column order (the `unreachable` arm of the source — a guarded-empty entry —
is `none` here and is never taken after the `all` check). -/
def pop_all (m : FieldsMap) (cmp : OpCmp) :
    List ColId → Option (List AV × FieldsMap × List (FieldName × OpCmp))
  | [] => some ([], m, [])
  | c :: cs =>
    match map_pop m (c, cmp) with
    | none => none
    | some (fv, m') =>
      (pop_all m' cmp cs).map (fun p => (fv.value :: p.1, p.2.1, (fv.field, fv.cmp) :: p.2.2))

/-- The main loop of `select_best_index` over `(index, cmp)` pairs, with the
early break when the map drains. -/
def sbi_loop :
    List (ColList × OpCmp) → FieldsMap → List IndexColumnOp →
      List (FieldName × OpCmp) →
      FieldsMap × List IndexColumnOp × List (FieldName × OpCmp)
  | [], m, found, fidx => (m, found, fidx)
  | (cl, cmp) :: rest, m, found, fidx =>
    if m.isEmpty then (m, found, fidx)
    else if cl.is_singleton then
      let p := map_remove m (cl.head, cmp)
      sbi_loop rest p.2 (found ++ p.1.map (fun fv => make_index_arg fv.cmp cl fv.value))
        (fidx ++ p.1.map (fun fv => (fv.field, fv.cmp)))
    else if cl.toList.all (fun c =>
        match map_get m (c, cmp) with
        | some fs => !fs.isEmpty
        | none => false) then
      match pop_all m cmp cl.toList with
      | some (elems, m', fadds) =>
        sbi_loop rest m' (found ++ [make_index_arg cmp cl (.product elems)]) (fidx ++ fadds)
      | none => sbi_loop rest m found fidx
    else sbi_loop rest m found fidx

/-- `select_best_index`: sort the declared indexes longest-first, extract
the sargable constraints, consume them per `(index, cmp)` pair, and emit the
leftovers as scans in map-key order. Returns the chosen operations and the
`(field, cmp)` pairs served by an index. -/
def select_best_index (fields_indexed : List (FieldName × OpCmp)) (header : Header)
    (ops : List ColumnOp) : List IndexColumnOp × List (FieldName × OpCmp) :=
  let indices := sort_by_len_desc
    ((header.constraints.filter (fun e => e.2.has_indexed)).map (fun e => e.1))
  let extracted := extract_fields header ops [] []
  let pairs := ([OpCmp.Eq, .Lt, .LtEq, .Gt, .GtEq]).flatMap
    (fun c => indices.map (fun cl => (cl, c)))
  let looped := sbi_loop pairs extracted.1 extracted.2 fields_indexed
  (looped.2.1 ++ (looped.1.flatMap (fun e => e.2)).map (fun fv => .Scan fv.parent),
    looped.2.2)

/-- The header of scenario S5: columns `a b c d` (ids 0..3) with indexes
`[a]`, `[b]` and `[b, c]`. -/
def c2_header : Header :=
  ⟨0, "t1",
    [⟨⟨0, 0⟩, .U64⟩, ⟨⟨0, 1⟩, .U64⟩, ⟨⟨0, 2⟩, .U64⟩, ⟨⟨0, 3⟩, .U64⟩],
    [(⟨0, []⟩, .indexed), (⟨1, []⟩, .indexed), (⟨1, [2]⟩, .indexed)]⟩

/-- The predicate of scenario S5: `a = 1 AND d > 2 AND c = 2 AND b = 1`. -/
def c2_pred : ColumnOp :=
  .and (.and (.and (.cmp ⟨0, 0⟩ .Eq (.u64 1)) (.cmp ⟨0, 3⟩ .Gt (.u64 2)))
    (.cmp ⟨0, 2⟩ .Eq (.u64 2))) (.cmp ⟨0, 1⟩ .Eq (.u64 1))

/-- C2. On the S5 header and the flattened conjunction
`a = 1 AND d > 2 AND c = 2 AND b = 1`, `select_best_index` returns exactly
`[Eq([b, c], product(1, 2)), Eq([a], 1), Scan(d > 2)]`, the composite index
before the single-column index. -/
theorem C2_select_best_index_s5 :
    c2_pred.flatten_ands
      = [.cmp ⟨0, 0⟩ .Eq (.u64 1), .cmp ⟨0, 3⟩ .Gt (.u64 2),
         .cmp ⟨0, 2⟩ .Eq (.u64 2), .cmp ⟨0, 1⟩ .Eq (.u64 1)] ∧
    (select_best_index [] c2_header c2_pred.flatten_ands).1
      = [.Index (.Eq ⟨1, [2]⟩ (.product [.u64 1, .u64 2])),
         .Index (.Eq ⟨0, []⟩ (.u64 1)),
         .Scan (.cmp ⟨0, 3⟩ .Gt (.u64 2))] := ⟨rfl, rfl⟩

/-! Claim C6: merging complementary index-scan bounds
(`with_index_lower_bound` / `with_index_upper_bound`). Panics of the
helper `ColumnOp::and_cmp` (out-of-range column indexing, a non-product
composite value, an empty product) are modelled as `none`. -/

/-- `ColumnOp::and_cmp`: one comparison per column, AND-ed together. -/
def ColumnOp.and_cmp (op : OpCmp) (head : Header) (cols : ColList) (value : AV) :
    Option ColumnOp :=
  if cols.is_singleton then
    (head.fields.get? cols.head).map (fun c => ColumnOp.cmp c.field op value)
  else
    match value.into_product with
    | none => none
    | some elems =>
      match (cols.toList.zip elems).mapM
          (fun p => (head.fields.get? p.1).map (fun c => ColumnOp.cmp c.field op p.2)) with
      | none => none
      | some [] => none
      | some (o :: rest) => some (rest.foldl ColumnOp.and o)

def and_both (x y : Option ColumnOp) : Option ColumnOp :=
  match x, y with
  | some a, some b => some (ColumnOp.and a b)
  | _, _ => none

/-- `ColumnOp::from_op_col_bounds`; the source's recursive catch-all (split
a two-sided range into lower and upper, then AND) is unfolded one level. -/
def ColumnOp.from_op_col_bounds (head : Header) (cols : ColList) :
    Bnd × Bnd → Option ColumnOp
  | (.Included a, .Included b) =>
    if avBeq a b then ColumnOp.and_cmp .Eq head cols a
    else and_both (ColumnOp.and_cmp .GtEq head cols a) (ColumnOp.and_cmp .LtEq head cols b)
  | (.Included v, .Unbounded) => ColumnOp.and_cmp .GtEq head cols v
  | (.Excluded v, .Unbounded) => ColumnOp.and_cmp .Gt head cols v
  | (.Unbounded, .Included v) => ColumnOp.and_cmp .LtEq head cols v
  | (.Unbounded, .Excluded v) => ColumnOp.and_cmp .Lt head cols v
  | (.Unbounded, .Unbounded) => none
  | (.Included a, .Excluded b) =>
    and_both (ColumnOp.and_cmp .GtEq head cols a) (ColumnOp.and_cmp .Lt head cols b)
  | (.Excluded a, .Included b) =>
    and_both (ColumnOp.and_cmp .Gt head cols a) (ColumnOp.and_cmp .LtEq head cols b)
  | (.Excluded a, .Excluded b) =>
    and_both (ColumnOp.and_cmp .Gt head cols a) (ColumnOp.and_cmp .Lt head cols b)

def QueryExpr.bound (value : AV) (inclusive : Bool) : Bnd :=
  if inclusive then .Included value else .Excluded value

theorem list_sizeOf_append [SizeOf α] (xs ys : List α) :
    sizeOf (xs ++ ys) + 1 = sizeOf xs + sizeOf ys := by
  induction xs with
  | nil => simp only [List.nil_append, List.nil.sizeOf_spec]; omega
  | cons x xs ih => simp only [List.cons_append, List.cons.sizeOf_spec]; omega

theorem sizeOf_dropLast_lt_of_getLast? [SizeOf α] {l : List α} {a : α}
    (h : l.getLast? = some a) : sizeOf l.dropLast < sizeOf l := by
  obtain ⟨ys, rfl⟩ := List.getLast?_eq_some_iff.mp h
  rw [List.dropLast_concat]
  have h2 := list_sizeOf_append ys [a]
  simp only [List.cons.sizeOf_spec, List.nil.sizeOf_spec] at h2
  omega

set_option linter.unusedVariables false in
/-- Worker for `QueryExpr::with_index_lower_bound`, over the source and the
operator list (`Vec::pop`/`push` act on the end of the list). -/
def wilb_worker (source : SourceExpr) (ops : List Query) (table : DbTable)
    (columns : ColList) (value : AV) (inclusive : Bool) : Option QueryExpr :=
  match hop : ops.getLast? with
  | none =>
    some (.mk source
      [.IndexScan ⟨table, columns, (QueryExpr.bound value inclusive, .Unbounded)⟩])
  | some query =>
    match query with
    | .JoinInner (.mk (.mk rhs_source rhs_query) col_lhs col_rhs semi) =>
      if (rhs_source.table_id.elim false (fun id => table.table_id != id)) then
        -- push the constraint below the join's lhs, then re-push the join
        match wilb_worker source ops.dropLast table columns value inclusive with
        | none => none
        | some q' =>
          some (.mk q'.source (q'.query
            ++ [.JoinInner (.mk (.mk rhs_source rhs_query) col_lhs col_rhs semi)]))
      else
        -- push the constraint into the join's rhs
        match wilb_worker rhs_source rhs_query table columns value inclusive with
        | none => none
        | some rhs' =>
          some (.mk source (ops.dropLast
            ++ [.JoinInner (.mk rhs' col_lhs col_rhs semi)]))
    | .IndexScan scan =>
      match scan.bounds with
      | (.Unbounded, .Included upper) =>
        if columns = scan.columns then
          some (.mk source (ops.dropLast
            ++ [.IndexScan ⟨table, columns,
                 (QueryExpr.bound value inclusive, .Included upper)⟩]))
        else
          match ColumnOp.from_op_col_bounds table.head columns
              (QueryExpr.bound value inclusive, .Unbounded) with
          | none => none
          | some op =>
            some (.mk source (ops.dropLast ++ [.IndexScan scan, .Select op]))
      | (.Unbounded, .Excluded upper) =>
        -- the equal-excluded case only logs a warning; the merged scan is
        -- emitted either way
        if columns = scan.columns then
          some (.mk source (ops.dropLast
            ++ [.IndexScan ⟨table, columns,
                 (QueryExpr.bound value inclusive, .Excluded upper)⟩]))
        else
          match ColumnOp.from_op_col_bounds table.head columns
              (QueryExpr.bound value inclusive, .Unbounded) with
          | none => none
          | some op =>
            some (.mk source (ops.dropLast ++ [.IndexScan scan, .Select op]))
      | _ =>
        match ColumnOp.from_op_col_bounds table.head columns
            (QueryExpr.bound value inclusive, .Unbounded) with
        | none => none
        | some op =>
          some (.mk source (ops.dropLast ++ [.IndexScan scan, .Select op]))
    | .Select filter =>
      match ColumnOp.from_op_col_bounds table.head columns
          (QueryExpr.bound value inclusive, .Unbounded) with
      | none => none
      | some op =>
        some (.mk source (ops.dropLast ++ [.Select (.and filter op)]))
    | other =>
      match ColumnOp.from_op_col_bounds table.head columns
          (QueryExpr.bound value inclusive, .Unbounded) with
      | none => none
      | some op =>
        some (.mk source (ops.dropLast ++ [other, .Select op]))
termination_by sizeOf ops
decreasing_by
  · exact sizeOf_dropLast_lt_of_getLast? hop
  · have h1 := List.sizeOf_lt_of_mem (List.mem_of_getLast?_eq_some hop)
    simp only [Query.JoinInner.sizeOf_spec, JoinExpr.mk.sizeOf_spec,
      QueryExpr.mk.sizeOf_spec] at h1
    omega

def QueryExpr.with_index_lower_bound (q : QueryExpr) (table : DbTable)
    (columns : ColList) (value : AV) (inclusive : Bool) : Option QueryExpr :=
  wilb_worker q.source q.query table columns value inclusive

set_option linter.unusedVariables false in
/-- Worker for `QueryExpr::with_index_upper_bound`. -/
def wiub_worker (source : SourceExpr) (ops : List Query) (table : DbTable)
    (columns : ColList) (value : AV) (inclusive : Bool) : Option QueryExpr :=
  match hop : ops.getLast? with
  | none =>
    some (.mk source
      [.IndexScan ⟨table, columns, (.Unbounded, QueryExpr.bound value inclusive)⟩])
  | some query =>
    match query with
    | .JoinInner (.mk (.mk rhs_source rhs_query) col_lhs col_rhs semi) =>
      if (rhs_source.table_id.elim false (fun id => table.table_id != id)) then
        match wiub_worker source ops.dropLast table columns value inclusive with
        | none => none
        | some q' =>
          some (.mk q'.source (q'.query
            ++ [.JoinInner (.mk (.mk rhs_source rhs_query) col_lhs col_rhs semi)]))
      else
        match wiub_worker rhs_source rhs_query table columns value inclusive with
        | none => none
        | some rhs' =>
          some (.mk source (ops.dropLast
            ++ [.JoinInner (.mk rhs' col_lhs col_rhs semi)]))
    | .IndexScan scan =>
      match scan.bounds with
      | (.Included lower, .Unbounded) =>
        if columns = scan.columns then
          some (.mk source (ops.dropLast
            ++ [.IndexScan ⟨table, columns,
                 (.Included lower, QueryExpr.bound value inclusive)⟩]))
        else
          match ColumnOp.from_op_col_bounds table.head columns
              (.Unbounded, QueryExpr.bound value inclusive) with
          | none => none
          | some op =>
            some (.mk source (ops.dropLast ++ [.IndexScan scan, .Select op]))
      | (.Excluded lower, .Unbounded) =>
        if columns = scan.columns then
          some (.mk source (ops.dropLast
            ++ [.IndexScan ⟨table, columns,
                 (.Excluded lower, QueryExpr.bound value inclusive)⟩]))
        else
          match ColumnOp.from_op_col_bounds table.head columns
              (.Unbounded, QueryExpr.bound value inclusive) with
          | none => none
          | some op =>
            some (.mk source (ops.dropLast ++ [.IndexScan scan, .Select op]))
      | _ =>
        match ColumnOp.from_op_col_bounds table.head columns
            (.Unbounded, QueryExpr.bound value inclusive) with
        | none => none
        | some op =>
          some (.mk source (ops.dropLast ++ [.IndexScan scan, .Select op]))
    | .Select filter =>
      match ColumnOp.from_op_col_bounds table.head columns
          (.Unbounded, QueryExpr.bound value inclusive) with
      | none => none
      | some op =>
        some (.mk source (ops.dropLast ++ [.Select (.and filter op)]))
    | other =>
      match ColumnOp.from_op_col_bounds table.head columns
          (.Unbounded, QueryExpr.bound value inclusive) with
      | none => none
      | some op =>
        some (.mk source (ops.dropLast ++ [other, .Select op]))
termination_by sizeOf ops
decreasing_by
  · exact sizeOf_dropLast_lt_of_getLast? hop
  · have h1 := List.sizeOf_lt_of_mem (List.mem_of_getLast?_eq_some hop)
    simp only [Query.JoinInner.sizeOf_spec, JoinExpr.mk.sizeOf_spec,
      QueryExpr.mk.sizeOf_spec] at h1
    omega

def QueryExpr.with_index_upper_bound (q : QueryExpr) (table : DbTable)
    (columns : ColList) (value : AV) (inclusive : Bool) : Option QueryExpr :=
  wiub_worker q.source q.query table columns value inclusive

/-- C6. Adding an exclusive lower bound `Excluded(v)` to a plan whose last
operator is an `IndexScan` on the same columns with bounds
`(Unbounded, Excluded(v))` still yields a plan whose last operator is the
two-sided `IndexScan` with bounds `(Excluded(v), Excluded(v))` — the
degenerate plan is emitted (the source only logs a warning), not rejected;
symmetrically for `with_index_upper_bound`. -/
theorem C6_equal_excluded_bounds_emitted (source : SourceExpr) (rest : List Query)
    (t1 t2 : DbTable) (cols : ColList) (v : AV) :
    QueryExpr.with_index_lower_bound
        (.mk source (rest ++ [.IndexScan ⟨t1, cols, (.Unbounded, .Excluded v)⟩]))
        t2 cols v false
      = some (.mk source (rest
          ++ [.IndexScan ⟨t2, cols, (.Excluded v, .Excluded v)⟩])) ∧
    QueryExpr.with_index_upper_bound
        (.mk source (rest ++ [.IndexScan ⟨t1, cols, (.Excluded v, .Unbounded)⟩]))
        t2 cols v false
      = some (.mk source (rest
          ++ [.IndexScan ⟨t2, cols, (.Excluded v, .Excluded v)⟩])) := by
  constructor
  · show wilb_worker source (rest ++ [.IndexScan ⟨t1, cols, (.Unbounded, .Excluded v)⟩])
        t2 cols v false = _
    rw [wilb_worker]
    split
    next h => rw [List.getLast?_concat] at h; exact absurd h (by simp)
    next op h =>
      rw [List.getLast?_concat] at h
      cases Option.some.inj h
      simp [List.dropLast_concat, QueryExpr.bound]
  · show wiub_worker source (rest ++ [.IndexScan ⟨t1, cols, (.Excluded v, .Unbounded)⟩])
        t2 cols v false = _
    rw [wiub_worker]
    split
    next h => rw [List.getLast?_concat] at h; exact absurd h (by simp)
    next op h =>
      rw [List.getLast?_concat] at h
      cases Option.some.inj h
      simp [List.dropLast_concat, QueryExpr.bound]

/-! Claim C8: `IndexJoin::reorder`. -/

def is_select_or_index_scan : Query → Bool
  | .Select _ => true
  | .IndexScan _ => true
  | _ => false

/-- The `From<Query> for Option<ColumnOp>` conversion: an `IndexScan`
becomes the predicate of its bounds (panics modelled as outer `none`), a
`Select` keeps its predicate, anything else converts to `None`. -/
def query_to_column_op : Query → Option (Option ColumnOp)
  | .IndexScan scan =>
    (ColumnOp.from_op_col_bounds scan.table.head scan.columns scan.bounds).map some
  | .Select op => some (some op)
  | _ => some none

/-- Merge all selections of the probe side into one predicate:
`filter_map` the conversion, then `reduce` with AND. -/
def convert_probe_query (ops : List Query) : Option (Option ColumnOp) :=
  (ops.mapM query_to_column_op).map (fun l =>
    match l.filterMap id with
    | [] => none
    | x :: xs => some (xs.foldl ColumnOp.and x))

/-- The swap branch of `reorder`: the former index side (filtered by the
former `index_select`) becomes the probe side, the former probe source
becomes the index side, the merged probe selections become the new
`index_select`, and `return_index_rows` flips. -/
def reorder_swap (probe_side : QueryExpr) (index_side : SourceExpr)
    (index_select : Option ColumnOp) (index_col : ColId)
    (return_index_rows : Bool) (probe_column : ColId) : Option IndexJoin :=
  match index_side.head.fields.get? index_col with
  | none => none
  | some colmn =>
    match convert_probe_query probe_side.query with
    | none => none
    | some predicate =>
      some (.mk
        (match index_select with
          | some pred => .mk index_side [.Select pred]
          | none => .mk index_side [])
        colmn.field probe_side.source predicate probe_column (!return_index_rows))

/-- `IndexJoin::reorder`: keep the join unless the probe side is a physical
table with an index on the join field and a linear pipeline of selections;
then swap unless the index side is a physical table with more than 500
rows. Panics (the `unwrap` on `column_pos`, the field indexing, and
conversion panics) are modelled as `none`. -/
def IndexJoin.reorder (j : IndexJoin) (row_count : TableId → String → Int) :
    Option IndexJoin :=
  match j with
  | .mk probe_side probe_field index_side index_select index_col return_index_rows =>
    if probe_side.source.is_mem_table then
      some (.mk probe_side probe_field index_side index_select index_col return_index_rows)
    else if !(probe_side.source.head.has_constraint probe_field) then
      some (.mk probe_side probe_field index_side index_select index_col return_index_rows)
    else if !(probe_side.query.all is_select_or_index_scan) then
      some (.mk probe_side probe_field index_side index_select index_col return_index_rows)
    else
      match probe_side.source.head.column_pos probe_field with
      | none => none
      | some probe_column =>
        match index_side.get_db_table with
        | some d =>
          if row_count d.table_id d.head.table_name > 500 then
            some (.mk probe_side probe_field index_side index_select index_col
              return_index_rows)
          else
            reorder_swap probe_side index_side index_select index_col
              return_index_rows probe_column
        | none =>
          reorder_swap probe_side index_side index_select index_col
            return_index_rows probe_column

/-- C8 (amended). For an `IndexJoin` whose probe side is a physical table
with an index on its join field and a pipeline of only selections and index
scans: if the index side is a physical table with more than 500 rows the
join is returned unchanged; otherwise (small physical table, or in-memory
index side) the two sides are swapped — the former index side (filtered by
the former `index_select`) becomes the probe side, the former probe source
becomes the index side, the merged former probe-side selections become the
new `index_select`, and `return_index_rows` is negated. -/
theorem C8_reorder_amended (j : IndexJoin) (rc : TableId → String → Int) (pc : ColId)
    (hphys : j.probe_side.source.is_mem_table = false)
    (hidx : j.probe_side.source.head.has_constraint j.probe_field = true)
    (hlin : j.probe_side.query.all is_select_or_index_scan = true)
    (hcol : j.probe_side.source.head.column_pos j.probe_field = some pc) :
    (∀ d, j.index_side = .DbTable d → rc d.table_id d.head.table_name > 500 →
      j.reorder rc = some j) ∧
    (∀ (colmn : Column) (predicate : Option ColumnOp),
      (match j.index_side.get_db_table with
        | some d => rc d.table_id d.head.table_name ≤ 500
        | none => True) →
      j.index_side.head.fields.get? j.index_col = some colmn →
      convert_probe_query j.probe_side.query = some predicate →
      j.reorder rc = some (.mk
        (match j.index_select with
          | some pred => .mk j.index_side [.Select pred]
          | none => .mk j.index_side [])
        colmn.field j.probe_side.source predicate pc (!j.return_index_rows))) := by
  match j with
  | .mk probe_side probe_field index_side index_select index_col return_index_rows =>
    simp only [IndexJoin.probe_side, IndexJoin.probe_field, IndexJoin.index_side,
      IndexJoin.index_select, IndexJoin.index_col, IndexJoin.return_index_rows]
      at hphys hidx hlin hcol ⊢
    constructor
    · intro d hd hbig
      subst hd
      rw [IndexJoin.reorder, if_neg (by rw [hphys]; exact Bool.false_ne_true),
        if_neg (by rw [hidx]; simp), if_neg (by rw [hlin]; simp), hcol]
      simp only [SourceExpr.get_db_table]
      rw [if_pos hbig]
    · intro colmn predicate hsmall hfield hconv
      rw [IndexJoin.reorder, if_neg (by rw [hphys]; exact Bool.false_ne_true),
        if_neg (by rw [hidx]; simp), if_neg (by rw [hlin]; simp)]
      simp only [hcol]
      have hswap : reorder_swap probe_side index_side index_select index_col
          return_index_rows pc = some (.mk
            (match index_select with
              | some pred => .mk index_side [.Select pred]
              | none => .mk index_side [])
            colmn.field probe_side.source predicate pc (!return_index_rows)) := by
        rw [reorder_swap.eq_def]
        simp only [hfield, hconv]
      split
      next d hdb =>
        simp only [hdb] at hsmall
        rw [if_neg (by omega)]
        exact hswap
      next hdb => exact hswap

/-- Probe-side header of the C8 concrete inputs: one `u64` column with an
index on it. -/
def c8_probe_header : Header := ⟨3, "probe", [⟨⟨3, 0⟩, .U64⟩], [(⟨0, []⟩, .indexed)]⟩

def c8_index_header : Header := ⟨4, "idx", [⟨⟨4, 0⟩, .U64⟩], []⟩

/-- Witness input for C8: a physical probe side with an indexed join field
and an in-memory index side. -/
def c8_j1 : IndexJoin :=
  .mk (.mk (.DbTable ⟨c8_probe_header, 3, .User, .Public⟩) []) ⟨3, 0⟩
    (.InMemory 1 c8_index_header .User .Public 1) none 0 true

/-- Witness for C8: the swap fires on `c8_j1`. -/
theorem C8_reorder_amended_witness :
    c8_j1.probe_side.source.is_mem_table = false ∧
    c8_j1.probe_side.source.head.has_constraint c8_j1.probe_field = true ∧
    c8_j1.probe_side.query.all is_select_or_index_scan = true ∧
    c8_j1.probe_side.source.head.column_pos c8_j1.probe_field = some 0 ∧
    c8_j1.reorder (fun _ _ => 1000) = some (.mk
      (.mk (.InMemory 1 c8_index_header .User .Public 1) [])
      ⟨4, 0⟩ (.DbTable ⟨c8_probe_header, 3, .User, .Public⟩) none 0 false) :=
  ⟨rfl, by decide, rfl, by decide,
    (C8_reorder_amended c8_j1 (fun _ _ => 1000) 0 rfl (by decide) rfl (by decide)).2
      ⟨⟨4, 0⟩, .U64⟩ none trivial rfl rfl⟩

/-- Counterexample input for C8 as stated: an in-memory probe side whose
header declares an index on the join field, with an in-memory index side. -/
def c8_j0 : IndexJoin :=
  .mk (.mk (.InMemory 0 c8_probe_header .User .Public 1) []) ⟨3, 0⟩
    (.InMemory 1 c8_index_header .User .Public 1) none 0 true

/-- Counterexample to C8 as stated: the probe table has an index on its
join field and the index side is in-memory, yet `reorder` returns the join
unchanged (the claim omits the conditions that the probe side be a physical
table with a pipeline of selections only); in particular the result does
not have `return_index_rows` negated. -/
theorem C8_reorder_counterexample :
    c8_j0.probe_side.source.head.has_constraint c8_j0.probe_field = true ∧
    c8_j0.index_side.is_mem_table = true ∧
    c8_j0.reorder (fun _ _ => 0) = some c8_j0 ∧
    c8_j0.return_index_rows = true ∧
    ∀ jsw : IndexJoin, jsw.return_index_rows = !c8_j0.return_index_rows →
      c8_j0.reorder (fun _ _ => 0) ≠ some jsw := by
  refine ⟨by decide, rfl, rfl, rfl, ?_⟩
  intro jsw hsw heq
  rw [show c8_j0.reorder (fun _ _ => 0) = some c8_j0 from rfl] at heq
  have h1 : c8_j0 = jsw := Option.some.inj heq
  have h2 := congrArg IndexJoin.return_index_rows h1
  rw [hsw] at h2
  rw [show c8_j0.return_index_rows = true from rfl] at h2
  exact Bool.noConfusion h2

end Vm
